import Mathlib

/-!
Verification of the battletech map-generation core against its
natural-language specification.

The Python sources are shallowly embedded:

* floating point numbers are modelled as rationals (`ℚ`); every arithmetic
  operation appearing in the embedded code paths (additions, multiplications,
  divisions by nonzero constants, `math.floor`, comparisons) is exact over the
  rationals for the magnitudes that occur, so the embedding is faithful;
* grid coordinates are pairs of integers `(x, y)`, matching the Python ints,
  and `elevation_map[y][x]` becomes `em y x` for a map `em : ℤ → ℤ → ℚ`;
* `while` loops become fuel-indexed recursive functions returning `Option`,
  with `none` meaning "fuel exhausted" (the Python loop would still be
  running), so every theorem about a loop result is conditioned on the loop
  having finished;
* calls to `random.choice` / `random.random` become explicit oracle
  parameters, and the process-wide `random` module state is threaded
  explicitly where a claim is about its mutation;
* Python `set` iteration order is unspecified; wherever the code iterates a
  set we model the set as an insertion-ordered duplicate-free list, which is
  one possible iteration order (no claim depends on the order).
-/

namespace Battletech

/-- Grid position `(x, y)`, mirroring the `(x, y)` tuples of the Python code. -/
abbrev Pos : Type := ℤ × ℤ

/-! ### Terrain categories (the twelve categories of the data model) -/

/-- The twelve terrain categories: the eleven values returned by
`MapGenerator.get_biome_type` plus the `river` overlay value. -/
inductive Terrain : Type
  | deep_ocean
  | shallow_water
  | beach
  | tundra
  | desert
  | plains
  | forest
  | jungle
  | hills
  | mountains
  | snow_peaks
  | river
  deriving DecidableEq, Repr

/-! ### Exact floor/ceil/truncation on rationals -/

/-- `math.floor` on an exact rational, written so that it reduces in the
kernel (`Int` division by a positive denominator is floor division). -/
def rat_floor (q : ℚ) : ℤ := q.num / q.den

lemma rat_floor_eq (q : ℚ) : rat_floor q = ⌊q⌋ := Rat.floor_def.symm

/-- `math.ceil` on an exact rational, kernel-reducible. -/
def rat_ceil (q : ℚ) : ℤ := -rat_floor (-q)

lemma rat_ceil_eq (q : ℚ) : rat_ceil q = ⌈q⌉ := by
  rw [rat_ceil, rat_floor_eq, Int.floor_neg, neg_neg]

/-! ### MapGenerator.get_biome_type (src/map_generator.py lines 97-126) -/

/-- Embedding of `MapGenerator.get_biome_type`.  Thresholds `0.2`, `0.3`,
`0.35`, `0.85`, `0.75`, `0.65` and the quantization `math.floor(climate*5)/5`
are taken verbatim from the source. -/
def get_biome_type (elevation climate : ℚ) : Terrain :=
  if elevation < 2/10 then .deep_ocean
  else if elevation < 3/10 then .shallow_water
  else if elevation < 35/100 then .beach
  else
    let climate_value : ℚ := ((rat_floor (climate * 5) : ℤ) : ℚ) / 5
    if 85/100 ≤ elevation then .snow_peaks
    else if 75/100 ≤ elevation then .mountains
    else if 65/100 ≤ elevation then .hills
    else if climate_value < 2/10 then .tundra
    else if climate_value < 4/10 then .desert
    else if climate_value < 6/10 then .plains
    else if climate_value < 8/10 then .forest
    else .jungle

/-- The biome decision procedure exactly as the specification sentence orders
it (first-match): water bands by elevation, then the three high-elevation
bands, then the quantized-climate bands. -/
def spec_biome_order (elevation climate : ℚ) : Terrain :=
  if elevation < 2/10 then .deep_ocean
  else if elevation < 3/10 then .shallow_water
  else if elevation < 35/100 then .beach
  else if 85/100 ≤ elevation then .snow_peaks
  else if 75/100 ≤ elevation then .mountains
  else if 65/100 ≤ elevation then .hills
  else
    let q : ℚ := (⌊climate * 5⌋ : ℚ) / 5
    if q < 2/10 then .tundra
    else if q < 4/10 then .desert
    else if q < 6/10 then .plains
    else if q < 8/10 then .forest
    else .jungle

/-! ### GameEngine terrain tables (src/game_engine.py lines 337-374) -/

/-- The explicit entries of the `costs` dict in
`GameEngine.get_terrain_movement_cost`; `none` means the dict has no entry for
that key (the code then falls back to the default `1`). -/
def movement_cost_table : Terrain → Option ℕ
  | .plains => some 1
  | .forest => some 2
  | .hills => some 2
  | .mountains => some 3
  | .desert => some 2
  | .jungle => some 3
  | .tundra => some 2
  | .beach => some 1
  | .shallow_water => some 4
  | .deep_ocean => some 10
  | .snow_peaks => some 5
  | .river => none

/-- Embedding of `GameEngine.get_terrain_movement_cost`
(`costs.get(terrain_type, 1)`). -/
def get_terrain_movement_cost (t : Terrain) : ℕ :=
  (movement_cost_table t).getD 1

/-- The explicit entries of the `chances` dict in
`GameEngine.get_encounter_chance`; `none` means no entry (default `0.2`). -/
def encounter_chance_table : Terrain → Option ℚ
  | .plains => some (3/10)
  | .forest => some (4/10)
  | .hills => some (35/100)
  | .mountains => some (25/100)
  | .desert => some (3/10)
  | .jungle => some (45/100)
  | .tundra => some (2/10)
  | .beach => some (1/10)
  | .shallow_water => some (1/10)
  | .deep_ocean => some (5/100)
  | .snow_peaks => some (15/100)
  | .river => none

/-- Embedding of `GameEngine.get_encounter_chance`
(`chances.get(terrain_type, 0.2)`). -/
def get_encounter_chance (t : Terrain) : ℚ :=
  (encounter_chance_table t).getD (2/10)

/-- Embedding of `GameEngine.can_move_to_terrain`
(`terrain_type not in ['deep_ocean']`). -/
def can_move_to_terrain (t : Terrain) : Bool :=
  decide (t ∉ [Terrain.deep_ocean])

/-! ### SimplexNoise construction (src/simplex_noise.py lines 5-24) -/

/-- The process-wide state of Python's `random` module, abstracted. -/
abbrev RandState : Type := ℕ

/-- Modelled from the semantics of CPython's `random.seed(s)`: seeding makes
the process-wide state a deterministic function of the seed alone. -/
def random_seed (s : ℕ) : RandState := s

/-- The `grad2` gradient table of `SimplexNoise.__init__`, verbatim. -/
def grad2_table : List (ℤ × ℤ) :=
  [(1, 1), (-1, 1), (1, -1), (-1, -1),
   (1, 0), (-1, 0), (1, 0), (-1, 0),
   (0, 1), (0, -1), (0, 1), (0, -1)]

/-- The construction state of a `SimplexNoise` instance that the claims are
about: the 512-entry permutation table and the gradient table.  The float
constants `F2`/`G2` (functions of `sqrt 3`) are irrational and play no role in
any claim, so they are not carried. -/
structure SimplexNoiseState : Type where
  perm : List ℕ
  grad2 : List (ℤ × ℤ)
  deriving DecidableEq, Repr

/-- Embedding of `SimplexNoise.__init__`.  `shuffle` abstracts
`random.shuffle(list(range(256)))`: from the current global random state it
yields the shuffled permutation and the advanced global state.  The result is
the constructed instance state, the post-construction global random state, and
a flag recording whether `random.seed` was invoked (the code invokes it
exactly when an explicit seed is given). -/
def simplex_init (shuffle : RandState → List ℕ × RandState)
    (seed : Option ℕ) (g : RandState) : SimplexNoiseState × RandState × Bool :=
  let seeded : Bool := seed.isSome
  let g1 : RandState := match seed with | some s => random_seed s | none => g
  let sp := shuffle g1
  (⟨sp.1 ++ sp.1, grad2_table⟩, sp.2, seeded)

/-- A concrete instantiation of the shuffle oracle, used for closed
evaluations: the permutation content is irrelevant to every claim. -/
def shuffle0 : RandState → List ℕ × RandState := fun g => (List.range 256, g + 1)

/-! ### River generation parameters (MapGenerator.__init__, lines 18-21) -/

/-- `self.min_river_length = 14`. -/
def min_river_length : ℕ := 14

/-- `self.water_level = 0.3`. -/
def water_level : ℚ := 3/10

/-- `self.river_source_elevation_threshold = 0.7`. -/
def river_source_elevation_threshold : ℚ := 7/10

/-! ### MapGenerator.get_neighbors (lines 162-176) -/

/-- The orthogonal direction offsets, in source order. -/
def ortho_dirs : List Pos := [(0, -1), (0, 1), (-1, 0), (1, 0)]

/-- The diagonal direction offsets, in source order. -/
def diag_dirs : List Pos := [(-1, -1), (-1, 1), (1, -1), (1, 1)]

/-- `0 <= x < width and 0 <= y < height`. -/
def in_bounds (W H : ℤ) (p : Pos) : Prop :=
  0 ≤ p.1 ∧ p.1 < W ∧ 0 ≤ p.2 ∧ p.2 < H

instance in_bounds.decide (W H : ℤ) (p : Pos) : Decidable (in_bounds W H p) := by
  unfold in_bounds; exact inferInstance

/-- Embedding of `MapGenerator.get_neighbors`: in-bounds orthogonal
neighbours first, then in-bounds diagonal neighbours. -/
def get_neighbors (W H : ℤ) (p : Pos) : List Pos :=
  (ortho_dirs ++ diag_dirs).filterMap fun d =>
    let q : Pos := (p.1 + d.1, p.2 + d.2)
    if in_bounds W H q then some q else none

/-! ### MapGenerator.find_flow_direction (lines 178-238) -/

/-- Accumulator of the first scan of `find_flow_direction`: the best elevation
drop found so far, its position, and the flat (equal-elevation) unvisited
neighbours in scan order. -/
structure FlowScan : Type where
  best_drop : ℚ
  best_pos : Option Pos
  flats : List Pos

/-- One neighbour of the first scan of `find_flow_direction` (lines 188-202):
skip visited cells; a strictly lower cell replaces the best candidate when its
drop is larger, or equal with the candidate orthogonal; a flat cell is
collected. -/
def flow_scan_step (em : ℤ → ℤ → ℚ) (p : Pos) (visited : List Pos)
    (st : FlowScan) (n : Pos) : FlowScan :=
  if n ∈ visited then st
  else
    let drop : ℚ := em p.2 p.1 - em n.2 n.1
    if 0 < drop then
      if st.best_drop < drop ∨ (drop = st.best_drop ∧ |n.1 - p.1| + |n.2 - p.2| = 1) then
        FlowScan.mk drop (some n) st.flats
      else st
    else if drop = 0 then FlowScan.mk st.best_drop st.best_pos (st.flats ++ [n])
    else st

/-- The full first scan over the neighbours of `p`. -/
def flow_scan (em : ℤ → ℤ → ℚ) (W H : ℤ) (p : Pos) (visited : List Pos) : FlowScan :=
  (get_neighbors W H p).foldl (flow_scan_step em p visited) (FlowScan.mk 0 none [])

/-- The neighbour scan of one dequeued BFS cell (lines 216-228): skip cells in
`flat_visited`; on the first strictly lower neighbour return the first step of
the recorded path (or the lower cell itself when the path is empty); enqueue
flat neighbours, extending the recorded path.  `Sum.inl` is the early return,
`Sum.inr` the updated `(flat_visited, appended queue items)`. -/
def bfs_scan (em : ℤ → ℤ → ℚ) (cur_elev : ℚ) :
    List Pos → Finset Pos → List (Pos × List Pos) → List Pos →
      Pos ⊕ (Finset Pos × List (Pos × List Pos))
  | [], fv, acc, _ => Sum.inr (fv, acc)
  | n :: ns, fv, acc, path =>
    if n ∈ fv then bfs_scan em cur_elev ns fv acc path
    else if em n.2 n.1 < cur_elev then
      Sum.inl (match path with | [] => n | h :: _ => h)
    else if em n.2 n.1 = cur_elev then
      bfs_scan em cur_elev ns (insert n fv) (acc ++ [(n, path ++ [n])]) path
    else bfs_scan em cur_elev ns fv acc path

/-- The BFS loop over the deque (lines 211-228), fuel-indexed: `none` means
fuel ran out, `some none` that the queue drained without finding lower ground,
`some (some p)` the early return.  `cur_elev` is the elevation of the cell the
trace currently sits on, fixed for the whole search as in the source. -/
def bfs_flow (em : ℤ → ℤ → ℚ) (W H : ℤ) (cur_elev : ℚ) :
    ℕ → List (Pos × List Pos) → Finset Pos → Option (Option Pos)
  | 0, _, _ => none
  | _ + 1, [], _ => some none
  | fuel + 1, (c, path) :: rest, fv =>
    match bfs_scan em cur_elev (get_neighbors W H c) fv [] path with
    | .inl p => some (some p)
    | .inr (fv', items) => bfs_flow em W H cur_elev fuel (rest ++ items) fv'

/-- Embedding of `MapGenerator.find_flow_direction`.  `choice` abstracts
`random.choice`; `visited` is the set of cells already on the river path.
Result: `none` = BFS fuel exhausted, `some none` = the Python function
returned `None` (flow dead end), `some (some q)` = it returned cell `q`. -/
def find_flow_direction (em : ℤ → ℤ → ℚ) (W H : ℤ) (choice : List Pos → Pos)
    (bfs_fuel : ℕ) (p : Pos) (visited : List Pos) : Option (Option Pos) :=
  let st := flow_scan em W H p visited
  match st.best_pos with
  | some q => some (some q)
  | none =>
    if st.flats = [] then some none
    else
      match bfs_flow em W H (em p.2 p.1) bfs_fuel [(p, [])] {p} with
      | none => none
      | some (some q) => some (some q)
      | some none =>
        let ortho := st.flats.filter fun n => decide (|n.1 - p.1| + |n.2 - p.2| = 1)
        if ortho = [] then some (some (choice st.flats))
        else some (some (choice ortho))

/-! ### MapGenerator.trace_river_path (lines 240-302) -/

/-- Python `int()` applied to an exact rational: truncation toward zero. -/
def py_int (q : ℚ) : ℤ := if 0 ≤ q then rat_floor q else rat_ceil q

/-- Python `min` on two ints, written out so that it reduces in the kernel. -/
def py_min (a b : ℤ) : ℤ := if a ≤ b then a else b

/-- Comparison `abs(elev1 - last) < abs(elev2 - last)` where either side may
be `float('inf')` (modelled by `none`). -/
def inf_abs_lt : Option ℚ → Option ℚ → ℚ → Bool
  | none, _, _ => false
  | some _, none, _ => true
  | some a, some b, l => decide (|a - l| < |b - l|)

/-- The intermediate cells inserted between `cur` and `next` (lines 258-288):
for a diagonal move, the in-bounds-guarded elevation comparison picks one of
the two elbow cells (added only if unvisited); for a longer jump the evenly
spaced integer points are added, skipping visited ones. -/
def diag_intermediates (em : ℤ → ℤ → ℚ) (W H : ℤ) (cur : Pos) (last_elev : ℚ)
    (next : Pos) (visited : List Pos) : List Pos :=
  let dx := next.1 - cur.1
  let dy := next.2 - cur.2
  if |dx| = 1 ∧ |dy| = 1 then
    let o1 : Pos := (cur.1 + dx, cur.2)
    let o2 : Pos := (cur.1, cur.2 + dy)
    let e1 : Option ℚ :=
      if 0 ≤ cur.1 + dx ∧ cur.1 + dx < W then some (em cur.2 (cur.1 + dx)) else none
    let e2 : Option ℚ :=
      if 0 ≤ cur.2 + dy ∧ cur.2 + dy < H then some (em (cur.2 + dy) cur.1) else none
    if inf_abs_lt e1 e2 last_elev then (if o1 ∈ visited then [] else [o1])
    else if o2 ∈ visited then [] else [o2]
  else if 1 < |dx| ∨ 1 < |dy| then
    let steps := max |dx| |dy|
    (List.range (steps.toNat - 1)).foldl
      (fun acc k =>
        let i : ℤ := (k : ℤ) + 1
        let q : Pos := (cur.1 + py_int (((dx * i : ℤ) : ℚ) / ((steps : ℤ) : ℚ)),
                        cur.2 + py_int (((dy * i : ℤ) : ℚ) / ((steps : ℤ) : ℚ)))
        if q ∈ visited ++ acc then acc else acc ++ [q]) []
  else []

/-- The `while True` loop of `trace_river_path`, fuel-indexed.  The `visited`
set of the source coincides, as a set, with the cells of `path` (every
`path.append` is paired with a `visited.add`), so `path` itself is passed as
the visited list. -/
def trace_loop (em : ℤ → ℤ → ℚ) (W H : ℤ) (choice : List Pos → Pos)
    (bfs_fuel : ℕ) : ℕ → Pos → ℚ → List Pos → Option (List Pos)
  | 0, _, _, _ => none
  | fuel + 1, cur, last_elev, path =>
    match find_flow_direction em W H choice bfs_fuel cur path with
    | none => none
    | some none => some path
    | some (some next) =>
      let path2 := (path ++ diag_intermediates em W H cur last_elev next path) ++ [next]
      if em next.2 next.1 < water_level then some path2
      else trace_loop em W H choice bfs_fuel fuel next (em next.2 next.1) path2

/-- Embedding of `MapGenerator.trace_river_path`: run the trace loop from the
source, then discard paths shorter than `min_river_length`. -/
def trace_river_path (em : ℤ → ℤ → ℚ) (W H : ℤ) (choice : List Pos → Pos)
    (bfs_fuel fuel : ℕ) (start : Pos) : Option (List Pos) :=
  (trace_loop em W H choice bfs_fuel fuel start (em start.2 start.1) [start]).map
    fun p => if min_river_length ≤ p.length then p else []

/-! ### Lemmas about find_flow_direction -/

/-- One scan step preserves the invariant "no best candidate yet means the
best drop is still the initial `0`". -/
lemma flow_scan_step_inv (em : ℤ → ℤ → ℚ) (p : Pos) (visited : List Pos)
    (st : FlowScan) (n : Pos) (h : st.best_pos = none → st.best_drop = 0) :
    (flow_scan_step em p visited st n).best_pos = none →
      (flow_scan_step em p visited st n).best_drop = 0 := by
  by_cases h1 : n ∈ visited
  · have hs : flow_scan_step em p visited st n = st := by
      simp [flow_scan_step, h1]
    rw [hs]; exact h
  · by_cases h2 : 0 < em p.2 p.1 - em n.2 n.1
    · by_cases h3 : st.best_drop < em p.2 p.1 - em n.2 n.1 ∨
        (em p.2 p.1 - em n.2 n.1 = st.best_drop ∧ |n.1 - p.1| + |n.2 - p.2| = 1)
      · have hs : flow_scan_step em p visited st n =
            FlowScan.mk (em p.2 p.1 - em n.2 n.1) (some n) st.flats := by
          simp [flow_scan_step, h1, h2, h3]
        rw [hs]; intro hc; simp at hc
      · have hs : flow_scan_step em p visited st n = st := by
          simp [flow_scan_step, h1, h2, h3]
        rw [hs]; exact h
    · by_cases h4 : em p.2 p.1 - em n.2 n.1 = 0
      · have hs : flow_scan_step em p visited st n =
            FlowScan.mk st.best_drop st.best_pos (st.flats ++ [n]) := by
          simp [flow_scan_step, h1, h2, h4]
        rw [hs]; exact h
      · have hs : flow_scan_step em p visited st n = st := by
          simp [flow_scan_step, h1, h2, h4]
        rw [hs]; exact h

/-- If the scan finishes with no best candidate and no flat neighbour, then it
started that way and every unvisited scanned cell is strictly higher. -/
lemma flow_scan_foldl_none (em : ℤ → ℤ → ℚ) (p : Pos) (visited : List Pos) :
    ∀ (ns : List Pos) (st : FlowScan),
      (st.best_pos = none → st.best_drop = 0) →
      (ns.foldl (flow_scan_step em p visited) st).best_pos = none →
      (ns.foldl (flow_scan_step em p visited) st).flats = [] →
      st.best_pos = none ∧ st.flats = [] ∧
        ∀ n ∈ ns, n ∉ visited → em p.2 p.1 < em n.2 n.1 := by
  intro ns
  induction ns with
  | nil =>
    intro st _ h1 h2
    exact ⟨h1, h2, by simp⟩
  | cons n ns ih =>
    intro st hinv h1 h2
    rw [List.foldl_cons] at h1 h2
    obtain ⟨h1', h2', h3'⟩ :=
      ih (flow_scan_step em p visited st n) (flow_scan_step_inv em p visited st n hinv) h1 h2
    have hstep : st.best_pos = none ∧ st.flats = [] ∧
        (n ∉ visited → em p.2 p.1 < em n.2 n.1) := by
      by_cases hv : n ∈ visited
      · have hs : flow_scan_step em p visited st n = st := by
          simp [flow_scan_step, hv]
        rw [hs] at h1' h2'
        exact ⟨h1', h2', fun hn => absurd hv hn⟩
      · by_cases hd : 0 < em p.2 p.1 - em n.2 n.1
        · by_cases hc : st.best_drop < em p.2 p.1 - em n.2 n.1 ∨
            (em p.2 p.1 - em n.2 n.1 = st.best_drop ∧ |n.1 - p.1| + |n.2 - p.2| = 1)
          · have hs : flow_scan_step em p visited st n =
                FlowScan.mk (em p.2 p.1 - em n.2 n.1) (some n) st.flats := by
              simp [flow_scan_step, hv, hd, hc]
            rw [hs] at h1'; simp at h1'
          · have hs : flow_scan_step em p visited st n = st := by
              simp [flow_scan_step, hv, hd, hc]
            rw [hs] at h1' h2'
            exact absurd (Or.inl (by rw [hinv h1']; exact hd)) hc
        · by_cases hz : em p.2 p.1 - em n.2 n.1 = 0
          · have hs : flow_scan_step em p visited st n =
                FlowScan.mk st.best_drop st.best_pos (st.flats ++ [n]) := by
              simp [flow_scan_step, hv, hd, hz]
            rw [hs] at h2'; simp at h2'
          · have hs : flow_scan_step em p visited st n = st := by
              simp [flow_scan_step, hv, hd, hz]
            rw [hs] at h1' h2'
            refine ⟨h1', h2', fun _ => ?_⟩
            have hlt : em p.2 p.1 - em n.2 n.1 < 0 := lt_of_le_of_ne (not_lt.mp hd) hz
            linarith
    refine ⟨hstep.1, hstep.2.1, ?_⟩
    intro m hm hmv
    rcases List.mem_cons.mp hm with rfl | hm'
    · exact hstep.2.2 hmv
    · exact h3' m hm' hmv

/-- If `find_flow_direction` returns the Python value `None`, the current cell
is a flow dead end: every unvisited in-bounds neighbour is strictly higher. -/
lemma find_flow_direction_none (em : ℤ → ℤ → ℚ) (W H : ℤ)
    (choice : List Pos → Pos) (bf : ℕ) (p : Pos) (visited : List Pos)
    (h : find_flow_direction em W H choice bf p visited = some none) :
    ∀ n ∈ get_neighbors W H p, n ∉ visited → em p.2 p.1 < em n.2 n.1 := by
  have h' := h
  unfold find_flow_direction at h'
  simp only at h'
  split at h'
  · simp at h'
  · split at h'
    · rename_i hbp hfl
      exact fun n hn hnv =>
        (flow_scan_foldl_none em p visited (get_neighbors W H p)
          (FlowScan.mk 0 none []) (fun _ => rfl) hbp hfl).2.2 n hn hnv
    · split at h' <;> first
        | exact absurd h' (by simp)
        | (split at h' <;> exact absurd h' (by simp))

/-! ### Lemmas about trace_river_path -/

/-- Loop invariant for the trace loop: if the loop finishes, the returned path
ends at a cell that is either below water level or a flow dead end with
respect to the whole returned path. -/
lemma trace_loop_spec (em : ℤ → ℤ → ℚ) (W H : ℤ) (choice : List Pos → Pos)
    (bf : ℕ) :
    ∀ (fuel : ℕ) (cur : Pos) (le : ℚ) (path q : List Pos),
      path.getLast? = some cur →
      trace_loop em W H choice bf fuel cur le path = some q →
      ∃ last, q.getLast? = some last ∧
        (em last.2 last.1 < water_level ∨
          ∀ n ∈ get_neighbors W H last, n ∉ q → em last.2 last.1 < em n.2 n.1) := by
  intro fuel
  induction fuel with
  | zero => intro cur le path q _ h; exact absurd h (by simp [trace_loop])
  | succ fuel ih =>
    intro cur le path q hlast h
    rw [trace_loop] at h
    split at h
    · exact absurd h (by simp)
    · rename_i hffd
      obtain rfl : path = q := by injection h
      exact ⟨cur, hlast, Or.inr (find_flow_direction_none em W H choice bf cur path hffd)⟩
    · rename_i next hffd
      split at h
      · rename_i hwl
        obtain rfl :
            (path ++ diag_intermediates em W H cur le next path) ++ [next] = q := by
          injection h
        exact ⟨next, List.getLast?_concat _, Or.inl hwl⟩
      · exact ih next (em next.2 next.1) _ q (List.getLast?_concat _) h

/-- C2: if `trace_river_path` returns a non-empty path, that path has length
at least the minimum threshold `14` and its final cell is either below
`water_level` or a flow dead end (no unvisited lower-or-equal neighbour was
available); and any trace whose raw loop path is shorter than `14` cells is
returned as the empty path (silent discard, not an error). -/
theorem C2_trace_river_path (em : ℤ → ℤ → ℚ) (W H : ℤ)
    (choice : List Pos → Pos) (bfs_fuel fuel : ℕ) (start : Pos) :
    (∀ p, trace_river_path em W H choice bfs_fuel fuel start = some p →
      p = [] ∨
        (min_river_length ≤ p.length ∧
          ∃ last, p.getLast? = some last ∧
            (em last.2 last.1 < water_level ∨
              ∀ n ∈ get_neighbors W H last, n ∉ p →
                em last.2 last.1 < em n.2 n.1))) ∧
    (∀ q, trace_loop em W H choice bfs_fuel fuel start (em start.2 start.1)
        [start] = some q →
      q.length < min_river_length →
        trace_river_path em W H choice bfs_fuel fuel start = some []) := by
  constructor
  · intro p hp
    unfold trace_river_path at hp
    rw [Option.map_eq_some'] at hp
    obtain ⟨q, hq, hpq⟩ := hp
    by_cases hlen : min_river_length ≤ q.length
    · rw [if_pos hlen] at hpq
      subst hpq
      exact Or.inr ⟨hlen, trace_loop_spec em W H choice bfs_fuel fuel start
        (em start.2 start.1) [start] q rfl hq⟩
    · rw [if_neg hlen] at hpq
      exact Or.inl hpq.symm
  · intro q hq hlen
    unfold trace_river_path
    rw [hq]
    simp [Nat.not_le_of_lt hlen]

/-- A constant-zero elevation map, for closed evaluations. -/
def const_zero_map : ℤ → ℤ → ℚ := fun _ _ => 0

/-- A concrete `random.choice` oracle, for closed evaluations. -/
def head_choice : List Pos → Pos := fun l => l.headD (0, 0)

/-- Closed witness for `C2_trace_river_path`: on a 1×1 map the trace
immediately dead-ends, the 1-cell path is shorter than 14, and the empty path
is returned. -/
theorem C2_trace_river_path_witness :
    (([] : List Pos) = [] ∨
      (min_river_length ≤ ([] : List Pos).length ∧
        ∃ last, ([] : List Pos).getLast? = some last ∧
          (const_zero_map last.2 last.1 < water_level ∨
            ∀ n ∈ get_neighbors 1 1 last, n ∉ ([] : List Pos) →
              const_zero_map last.2 last.1 < const_zero_map n.2 n.1))) ∧
    trace_river_path const_zero_map 1 1 head_choice 1 1 (0, 0) = some [] :=
  ⟨(C2_trace_river_path const_zero_map 1 1 head_choice 1 1 (0, 0)).1 []
      (by decide),
   (C2_trace_river_path const_zero_map 1 1 head_choice 1 1 (0, 0)).2 [(0, 0)]
      (by decide) (by decide)⟩

/-! ### MapGenerator.generate_rivers (lines 315-342) -/

/-- The body of the `for source_x, source_y in sources` loop of
`generate_rivers`: skip sources already on a river; otherwise trace a path and
accept it exactly when its overlap with already-claimed cells is below 30% of
its length (`overlap < len(path) * 0.3`; exact over `ℚ`, and the float
comparison of the source agrees with the rational one for all reachable
values).  State: `(accepted paths, claimed cells)`. -/
def river_step (em : ℤ → ℤ → ℚ) (W H : ℤ) (choice : List Pos → Pos)
    (bfs_fuel fuel : ℕ) (st : List (List Pos) × Finset Pos) (src : Pos) :
    Option (List (List Pos) × Finset Pos) :=
  if src ∈ st.2 then some st
  else
    match trace_river_path em W H choice bfs_fuel fuel src with
    | none => none
    | some path =>
      if ((path.countP fun p => decide (p ∈ st.2)) : ℚ) < (path.length : ℚ) * (3/10)
      then some (st.1 ++ [path], st.2 ∪ path.toFinset)
      else some st

/-- Embedding of `MapGenerator.generate_rivers`, given the already-sorted
source list. -/
def generate_rivers (em : ℤ → ℤ → ℚ) (W H : ℤ) (choice : List Pos → Pos)
    (bfs_fuel fuel : ℕ) (sources : List Pos) :
    Option (List (List Pos) × Finset Pos) :=
  sources.foldlM (river_step em W H choice bfs_fuel fuel) ([], ∅)

/-- The union of the cells of a list of accepted paths. -/
def cells_of (paths : List (List Pos)) : Finset Pos :=
  paths.foldl (fun s p => s ∪ p.toFinset) ∅

lemma cells_of_append (l : List (List Pos)) (p : List Pos) :
    cells_of (l ++ [p]) = cells_of l ∪ p.toFinset := by
  simp [cells_of, List.foldl_append]

/-! ## Claim C3 -/

/-- C3: at any state of the `generate_rivers` loop whose source is not yet
claimed, a newly traced path is accepted (appended, its cells claimed) if and
only if the count of its cells already claimed is strictly below 30% of its
length; a rejected path leaves the state unchanged; and the claimed-cell set
remains exactly the union of the accepted paths' cells. -/
theorem C3_generate_rivers_acceptance (em : ℤ → ℤ → ℚ) (W H : ℤ)
    (choice : List Pos → Pos) (bfs_fuel fuel : ℕ)
    (st : List (List Pos) × Finset Pos) (src : Pos) (path : List Pos)
    (hsrc : src ∉ st.2)
    (htrace : trace_river_path em W H choice bfs_fuel fuel src = some path) :
    (river_step em W H choice bfs_fuel fuel st src =
        some (st.1 ++ [path], st.2 ∪ path.toFinset) ↔
      ((path.countP fun p => decide (p ∈ st.2)) : ℚ) < (path.length : ℚ) * (3/10)) ∧
    (¬ (((path.countP fun p => decide (p ∈ st.2)) : ℚ) < (path.length : ℚ) * (3/10)) →
      river_step em W H choice bfs_fuel fuel st src = some st) ∧
    (st.2 = cells_of st.1 →
      ∀ st', river_step em W H choice bfs_fuel fuel st src = some st' →
        st'.2 = cells_of st'.1) := by
  have hstep : river_step em W H choice bfs_fuel fuel st src =
      if ((path.countP fun p => decide (p ∈ st.2)) : ℚ) < (path.length : ℚ) * (3/10)
      then some (st.1 ++ [path], st.2 ∪ path.toFinset)
      else some st := by
    unfold river_step
    rw [if_neg hsrc, htrace]
  by_cases hc : ((path.countP fun p => decide (p ∈ st.2)) : ℚ) <
      (path.length : ℚ) * (3/10)
  · rw [hstep, if_pos hc]
    refine ⟨⟨fun _ => hc, fun _ => rfl⟩, fun hn => absurd hc hn, ?_⟩
    intro hinv st' hst'
    obtain rfl : (st.1 ++ [path], st.2 ∪ path.toFinset) = st' := by injection hst'
    simp [cells_of_append, hinv]
  · rw [hstep, if_neg hc]
    refine ⟨⟨?_, fun hcc => absurd hcc hc⟩, fun _ => rfl, ?_⟩
    · intro heq
      exfalso
      have h1 : st.1 = st.1 ++ [path] := congrArg Prod.fst (by injection heq)
      have h2 : st.1.length = st.1.length + 1 := by
        conv_lhs => rw [h1]
        simp
      omega
    · intro hinv st' hst'
      obtain rfl : st = st' := by injection hst'
      exact hinv

/-- Closed witness for `C3_generate_rivers_acceptance`: the empty traced path
of a 1×1 map is rejected (overlap `0` is not below `0`) and the state is
unchanged. -/
theorem C3_generate_rivers_acceptance_witness :
    river_step const_zero_map 1 1 head_choice 1 1 ([], ∅) (0, 0) = some ([], ∅) :=
  (C3_generate_rivers_acceptance const_zero_map 1 1 head_choice 1 1 ([], ∅)
    (0, 0) [] (by decide) (by decide)).2.1 (by norm_num)

/-! ### MapGenerator.apply_rivers_to_map, first pass (lines 350-361) -/

/-- `base_width = min(len(path) / 20, 3)`. -/
def base_width (n : ℕ) : ℚ := min ((n : ℚ) / 20) 3

/-- `width = base_width * (0.5 + 0.5 * progress)` with `progress = i / n`. -/
def cell_width (n i : ℕ) : ℚ :=
  base_width n * (1/2 + 1/2 * ((i : ℚ) / (n : ℚ)))

/-- `river_widths[pos] = max(river_widths.get(pos, 0), width)`, on a width map
where `none` models an absent dict key. -/
def upd_width (f : Pos → Option ℚ) (p : Pos) (w : ℚ) : Pos → Option ℚ :=
  fun q => if q = p then some (max ((f p).getD 0) w) else f q

/-- The `for i, pos in enumerate(path)` loop of the first pass. -/
def apply_path_widths (f : Pos → Option ℚ) (path : List Pos) : Pos → Option ℚ :=
  path.enum.foldl (fun g ip => upd_width g ip.2 (cell_width path.length ip.1)) f

/-- The width map after the first pass over all accepted paths. -/
def first_pass_widths (paths : List (List Pos)) : Pos → Option ℚ :=
  paths.foldl apply_path_widths (fun _ => none)

/-- Insertion into an insertion-ordered duplicate-free list (the model of
`set.add`). -/
def add_unique (l : List Pos) (p : Pos) : List Pos :=
  if p ∈ l then l else l ++ [p]

/-- The `river_cells` set after the first pass, as an insertion-ordered list. -/
def first_pass_cells (paths : List (List Pos)) : List Pos :=
  paths.foldl (fun l path => path.foldl add_unique l) []

/-- The widths contributed to cell `p` by the occurrences of `p` in `path`. -/
def path_contribs (path : List Pos) (p : Pos) : List ℚ :=
  path.enum.filterMap fun ip =>
    if ip.2 = p then some (cell_width path.length ip.1) else none

/-- All widths contributed to cell `p` across the accepted paths. -/
def contribs (paths : List (List Pos)) (p : Pos) : List ℚ :=
  (paths.map (path_contribs · p)).flatten

lemma base_width_nonneg (n : ℕ) : 0 ≤ base_width n := by
  unfold base_width
  positivity

/-- The enumerated fold of one path computes the max of that path's
contributions on top of whatever the map already holds. -/
lemma foldl_upd_getD (p : Pos) (wf : ℕ → ℚ) :
    ∀ (l : List (ℕ × Pos)) (f : Pos → Option ℚ),
      ((l.foldl (fun g ip => upd_width g ip.2 (wf ip.1)) f) p).getD 0 =
        (l.filterMap fun ip => if ip.2 = p then some (wf ip.1) else none).foldl
          max ((f p).getD 0) := by
  intro l
  induction l with
  | nil => intro f; rfl
  | cons ip l ih =>
    intro f
    rw [List.foldl_cons, ih]
    by_cases hq : ip.2 = p
    · have h1 : (upd_width f ip.2 (wf ip.1)) p = some (max ((f p).getD 0) (wf ip.1)) := by
        simp [upd_width, hq]
      have h2 : (List.filterMap
            (fun ip => if ip.2 = p then some (wf ip.1) else none) (ip :: l)) =
          wf ip.1 :: List.filterMap
            (fun ip => if ip.2 = p then some (wf ip.1) else none) l := by
        simp [List.filterMap_cons, hq]
      rw [h1, h2, List.foldl_cons]
      simp
    · have h1 : (upd_width f ip.2 (wf ip.1)) p = f p := by
        unfold upd_width
        rw [if_neg (fun h => hq h.symm)]
      have h2 : (List.filterMap
            (fun ip => if ip.2 = p then some (wf ip.1) else none) (ip :: l)) =
          List.filterMap (fun ip => if ip.2 = p then some (wf ip.1) else none) l := by
        simp [List.filterMap_cons, hq]
      rw [h1, h2]

/-- The first pass computes, at every cell, the maximum of all contributing
widths (with `0` for a cell no path touches). -/
lemma first_pass_widths_max (p : Pos) :
    ∀ (paths : List (List Pos)) (f : Pos → Option ℚ),
      ((paths.foldl apply_path_widths f) p).getD 0 =
        (contribs paths p).foldl max ((f p).getD 0) := by
  intro paths
  induction paths with
  | nil => intro f; rfl
  | cons path paths ih =>
    intro f
    rw [List.foldl_cons, ih]
    unfold contribs
    rw [List.map_cons, List.flatten_cons, List.foldl_append]
    unfold apply_path_widths path_contribs
    rw [foldl_upd_getD]

/-- A concrete 20-cell path used for closed evaluations. -/
def path20 : List Pos := (List.range 20).map fun i => ((i : ℤ), 0)

/-! ## Claim C4 -/

/-- C4 counterexample: for the 20-cell path, the terminus cell (index 19) is
assigned width `39/40`, which is NOT 100% of the base width `1` — the
progress of the last index is `(n-1)/n`, not `1`. -/
theorem C4_counterexample :
    ((first_pass_widths [path20]) (19, 0)).getD 0 = 39/40 ∧
    base_width path20.length = 1 ∧ (39/40 : ℚ) ≠ 1 := by
  refine ⟨?_, ?_, by norm_num⟩
  · unfold first_pass_widths
    rw [first_pass_widths_max (19, 0) [path20] (fun _ => none)]
    have hc : contribs [path20] (19, 0) = [cell_width 20 19] := by
      norm_num [contribs, path_contribs, path20, List.range_succ, List.enum,
        List.filterMap_cons, Prod.ext_iff]
    rw [hc]
    show max 0 (cell_width 20 19) = 39/40
    norm_num [cell_width, base_width, min_def, max_def]
  · have hl : path20.length = 20 := by decide
    rw [hl]
    norm_num [base_width, min_def]

/-- C4 amended: every cell at index `i` of an accepted path of length `n`
contributes width `min(n/20, 3) * (0.5 + 0.5*i/n)`; a cell receives the
maximum over all its contributions (cross-path max-merge, `0` default); along
one path the width is non-decreasing in the index, equals 50% of the base
width at the source (index 0), and at the terminus (index `n-1`) equals
`base_width * (2n-1)/(2n)`, which is strictly less than 100% of the base
width (approaching it only as `n` grows). -/
theorem C4_amended_widths :
    (∀ (paths : List (List Pos)) (p : Pos),
      ((first_pass_widths paths) p).getD 0 = (contribs paths p).foldl max 0) ∧
    (∀ n i j : ℕ, i ≤ j → cell_width n i ≤ cell_width n j) ∧
    (∀ n : ℕ, cell_width n 0 = base_width n * (1/2)) ∧
    (∀ n : ℕ, 1 ≤ n →
      cell_width n (n - 1) = base_width n * ((2*(n:ℚ) - 1) / (2*(n:ℚ)))) ∧
    (∀ n : ℕ, 1 ≤ n → cell_width n (n - 1) < base_width n) := by
  have hbpos : ∀ n : ℕ, 1 ≤ n → 0 < base_width n := by
    intro n hn
    have h1 : (1 : ℚ) ≤ (n : ℚ) := by exact_mod_cast hn
    unfold base_width
    have : (0 : ℚ) < (n : ℚ) / 20 := by positivity
    exact lt_min this (by norm_num)
  refine ⟨fun paths p => first_pass_widths_max p paths _, ?_, ?_, ?_, ?_⟩
  · intro n i j hij
    unfold cell_width
    apply mul_le_mul_of_nonneg_left _ (base_width_nonneg n)
    have hdiv : (i : ℚ) / (n : ℚ) ≤ (j : ℚ) / (n : ℚ) := by
      rcases Nat.eq_zero_or_pos n with rfl | hn
      · simp
      · have hn' : (0 : ℚ) < (n : ℚ) := by exact_mod_cast hn
        exact (div_le_div_iff_of_pos_right hn').mpr (by exact_mod_cast hij)
    linarith
  · intro n
    unfold cell_width
    norm_num
  · intro n hn
    unfold cell_width
    have hn' : (0 : ℚ) < (n : ℚ) := by exact_mod_cast hn
    have hcast : ((n - 1 : ℕ) : ℚ) = (n : ℚ) - 1 := by
      rw [Nat.cast_sub hn]; norm_num
    have hfrac : (1/2 + 1/2 * (((n : ℚ) - 1) / (n : ℚ))) =
        (2*(n:ℚ) - 1) / (2*(n:ℚ)) := by
      field_simp
      ring
    rw [hcast, hfrac]
  · intro n hn
    have h4 := hbpos n hn
    have hn' : (0 : ℚ) < (n : ℚ) := by exact_mod_cast hn
    have hcast : ((n - 1 : ℕ) : ℚ) = (n : ℚ) - 1 := by
      rw [Nat.cast_sub hn]; norm_num
    unfold cell_width
    rw [hcast]
    have hlt : ((n : ℚ) - 1) / (n : ℚ) < 1 := by
      rw [div_lt_one hn']
      linarith
    have hfrac : 1/2 + 1/2 * (((n : ℚ) - 1) / (n : ℚ)) < 1 := by linarith
    calc base_width n * (1/2 + 1/2 * (((n:ℚ) - 1) / (n:ℚ)))
        < base_width n * 1 := mul_lt_mul_of_pos_left hfrac h4
      _ = base_width n := mul_one _

/-- Closed witness for `C4_amended_widths`. -/
theorem C4_amended_widths_witness :
    ((first_pass_widths [path20]) (0, 0)).getD 0 =
      (contribs [path20] (0, 0)).foldl max 0 ∧
    cell_width 20 3 ≤ cell_width 20 7 ∧
    cell_width 20 0 = base_width 20 * (1/2) ∧
    cell_width 20 (20 - 1) = base_width 20 * ((2*(20:ℚ) - 1) / (2*(20:ℚ))) ∧
    cell_width 20 (20 - 1) < base_width 20 :=
  ⟨C4_amended_widths.1 [path20] (0, 0),
   C4_amended_widths.2.1 20 3 7 (by decide),
   C4_amended_widths.2.2.1 20,
   C4_amended_widths.2.2.2.1 20 (by decide),
   C4_amended_widths.2.2.2.2 20 (by decide)⟩

/-! ### MapGenerator.apply_rivers_to_map, connectivity repair (lines 363-401) -/

/-- The elbow cell the code inserts for the diagonal pair `(p, p + d)`:
`(x+dx, y)` when `map_data[y][x+dx].elevation < map_data[y+dy][x].elevation`,
else `(x, y+dy)`. -/
def elbow_choice (em : ℤ → ℤ → ℚ) (p d : Pos) : Pos :=
  if em p.2 (p.1 + d.1) < em (p.2 + d.2) p.1 then (p.1 + d.1, p.2) else (p.1, p.2 + d.2)

/-- The elbow cell the code does not insert for the pair `(p, p + d)`. -/
def other_elbow (em : ℤ → ℤ → ℚ) (p d : Pos) : Pos :=
  if em p.2 (p.1 + d.1) < em (p.2 + d.2) p.1 then (p.1, p.2 + d.2) else (p.1 + d.1, p.2)

/-- The repair condition of lines 375-383: the diagonal neighbour is in
bounds and a river cell, and neither orthogonal elbow cell is. -/
def gap_condition (W H : ℤ) (cells : List Pos) (p d : Pos) : Prop :=
  in_bounds W H (p.1 + d.1, p.2 + d.2) ∧ (p.1 + d.1, p.2 + d.2) ∈ cells ∧
    (p.1 + d.1, p.2) ∉ cells ∧ (p.1, p.2 + d.2) ∉ cells

instance gap_condition.decide (W H : ℤ) (cells : List Pos)
    (p d : Pos) : Decidable (gap_condition W H cells p d) := by
  unfold gap_condition; exact inferInstance

/-- One full scan over the current river cells (the `for x, y in river_cells`
loop): the elbow cells chosen for every violating diagonal pair, in scan
order.  `gap_condition` only ever holds for diagonal offsets, so scanning the
four diagonal directions is equivalent to the code's eight-direction scan. -/
def scan_candidates (em : ℤ → ℤ → ℚ) (W H : ℤ) (cells : List Pos) : List Pos :=
  cells.flatMap fun p => diag_dirs.filterMap fun d =>
    if gap_condition W H cells p d then some (elbow_choice em p d) else none

/-- One step of the `for pos in new_river_cells` loop (lines 392-401): add the
candidate if not yet present, giving it the average of its neighbours' widths
when any neighbour has one. -/
def add_candidate (W H : ℤ) (st : List Pos × (Pos → Option ℚ)) (p : Pos) :
    List Pos × (Pos → Option ℚ) :=
  if p ∈ st.1 then st
  else
    let nws := (get_neighbors W H p).filterMap st.2
    let w2 : Pos → Option ℚ :=
      if nws = [] then st.2
      else fun q => if q = p then some (nws.sum / (nws.length : ℚ)) else st.2 q
    (st.1 ++ [p], w2)

/-- The whole `for pos in new_river_cells` loop. -/
def add_candidates (W H : ℤ) (st : List Pos × (Pos → Option ℚ)) (cands : List Pos) :
    List Pos × (Pos → Option ℚ) :=
  cands.foldl (add_candidate W H) st

lemma add_candidate_fst (W H : ℤ) (st : List Pos × (Pos → Option ℚ)) (p : Pos) :
    (add_candidate W H st p).1 = if p ∈ st.1 then st.1 else st.1 ++ [p] := by
  unfold add_candidate
  split
  · rfl
  · rfl

/-- The `while gaps_filled` fixed-point loop of `apply_rivers_to_map`,
fuel-indexed; state is `(river_cells, river_widths)`. -/
def repair_loop (em : ℤ → ℤ → ℚ) (W H : ℤ) :
    ℕ → List Pos × (Pos → Option ℚ) → Option (List Pos × (Pos → Option ℚ))
  | 0, _ => none
  | fuel + 1, st =>
    let cands := scan_candidates em W H st.1
    if cands = [] then some st
    else repair_loop em W H fuel (add_candidates W H st cands)

/-- Membership in the scan result, characterised. -/
lemma mem_scan_candidates (em : ℤ → ℤ → ℚ) (W H : ℤ) (cells : List Pos) (q : Pos) :
    q ∈ scan_candidates em W H cells ↔
      ∃ p ∈ cells, ∃ d ∈ diag_dirs,
        gap_condition W H cells p d ∧ q = elbow_choice em p d := by
  unfold scan_candidates
  rw [List.mem_flatMap]
  constructor
  · rintro ⟨p, hp, hq⟩
    rw [List.mem_filterMap] at hq
    obtain ⟨d, hd, hdq⟩ := hq
    by_cases hg : gap_condition W H cells p d
    · rw [if_pos hg] at hdq
      exact ⟨p, hp, d, hd, hg, (Option.some.inj hdq).symm⟩
    · rw [if_neg hg] at hdq
      exact absurd hdq (by simp)
  · rintro ⟨p, hp, d, hd, hg, rfl⟩
    exact ⟨p, hp, List.mem_filterMap.mpr ⟨d, hd, by rw [if_pos hg]⟩⟩

/-- When the repair loop exits, the last scan found nothing. -/
lemma repair_loop_exit (em : ℤ → ℤ → ℚ) (W H : ℤ) :
    ∀ (fuel : ℕ) (st st' : List Pos × (Pos → Option ℚ)),
      repair_loop em W H fuel st = some st' →
      scan_candidates em W H st'.1 = [] := by
  intro fuel
  induction fuel with
  | zero => intro st st' h; exact absurd h (by simp [repair_loop])
  | succ fuel ih =>
    intro st st' h
    rw [repair_loop] at h
    split at h
    · rename_i hc
      obtain rfl : st = st' := by injection h
      exact hc
    · exact ih _ _ h

/-! ## Claim C5 -/

/-- C5: when the connectivity-repair loop exits, the river-cell set is a fixed
point — no two diagonally adjacent river cells lack both orthogonal elbow
cells; and every elbow cell the scan ever inserts is the one of the two
candidates whose elevation is not larger than the other's. -/
theorem C5_repair_fixed_point (em : ℤ → ℤ → ℚ) (W H : ℤ) (fuel : ℕ)
    (st st' : List Pos × (Pos → Option ℚ))
    (h : repair_loop em W H fuel st = some st') :
    (∀ p ∈ st'.1, ∀ d ∈ diag_dirs,
      in_bounds W H (p.1 + d.1, p.2 + d.2) → (p.1 + d.1, p.2 + d.2) ∈ st'.1 →
      ((p.1 + d.1, p.2) ∈ st'.1 ∨ (p.1, p.2 + d.2) ∈ st'.1)) ∧
    (∀ (cells : List Pos) (q : Pos), q ∈ scan_candidates em W H cells →
      ∃ p ∈ cells, ∃ d ∈ diag_dirs,
        gap_condition W H cells p d ∧ q = elbow_choice em p d ∧
        em q.2 q.1 ≤ em (other_elbow em p d).2 (other_elbow em p d).1) := by
  constructor
  · intro p hp d hd hb hdiag
    by_contra hcon
    push_neg at hcon
    have hgap : gap_condition W H st'.1 p d := ⟨hb, hdiag, hcon.1, hcon.2⟩
    have hmem : elbow_choice em p d ∈ scan_candidates em W H st'.1 :=
      (mem_scan_candidates em W H st'.1 _).mpr ⟨p, hp, d, hd, hgap, rfl⟩
    rw [repair_loop_exit em W H fuel st st' h] at hmem
    exact absurd hmem (by simp)
  · intro cells q hq
    obtain ⟨p, hp, d, hd, hg, rfl⟩ := (mem_scan_candidates em W H cells q).mp hq
    refine ⟨p, hp, d, hd, hg, rfl, ?_⟩
    unfold elbow_choice other_elbow
    by_cases hlt : em p.2 (p.1 + d.1) < em (p.2 + d.2) p.1
    · rw [if_pos hlt, if_pos hlt]
      exact le_of_lt hlt
    · rw [if_neg hlt, if_neg hlt]
      exact not_lt.mp hlt

/-- Elevation map equal to the x coordinate, for closed evaluations. -/
def elevation_x : ℤ → ℤ → ℚ := fun _ x => (x : ℚ)

/-- Closed witness for `C5_repair_fixed_point`: on a 2×2 grid with river cells
`(0,0)` and `(1,1)`, the repair loop adds the lower-elevation elbow `(0,1)`
and reaches the fixed point `[(0,0), (1,1), (0,1)]`. -/
theorem C5_repair_fixed_point_witness :
    ((0, 1) : Pos) ∈ [((0, 0) : Pos), (1, 1), (0, 1)] ∨
      ((0, 1) : Pos) ∈ [((0, 0) : Pos), (1, 1), (0, 1)] := by
  have happ := C5_repair_fixed_point elevation_x 2 2 3
    ([(0, 0), (1, 1)], fun _ => none)
    ([(0, 0), (1, 1), (0, 1)], fun _ => none) (by rfl)
  have h1 := happ.1 (0, 0) (by decide) (1, 1) (by decide) (by decide) (by decide)
  rcases h1 with h | h
  · exact absurd h (by decide)
  · exact Or.inl h

/-! ### MapGenerator.smooth_noise (lines 128-141) and the colour palettes -/

/-- Embedding of `MapGenerator.smooth_noise`: octave accumulation over an
abstract normalized-noise function.  State: `(value, amplitude, frequency,
max_value)`. -/
def smooth_noise (noise : ℚ → ℚ → ℚ) (x y : ℚ) (octaves : ℕ) : ℚ :=
  let r := (List.range octaves).foldl
    (fun (acc : ℚ × ℚ × ℚ × ℚ) _ =>
      (acc.1 + noise (x * acc.2.2.1) (y * acc.2.2.1) * acc.2.1,
       acc.2.1 * (1/2), acc.2.2.1 * 2, acc.2.2.2 + acc.2.1))
    (0, 1, 1, 0)
  r.1 / r.2.2.2

/-- The colour palettes of `initialize_color_palette` (lines 23-95),
verbatim. -/
def palette_of : Terrain → List String
  | .deep_ocean =>
    ["#000033", "#000040", "#00004D", "#000059",
     "#000066", "#000073", "#000080", "#00008C"]
  | .shallow_water =>
    ["#000099", "#0000B2", "#0000CC", "#0000E6",
     "#0000FF", "#1A1AFF"]
  | .river => ["#99CCFF", "#66B2FF", "#3399FF", "#0080FF"]
  | .beach => ["#FFE5B2", "#FFD480", "#FFC74D", "#FFBA1A"]
  | .tundra =>
    ["#E0E0E0", "#D1D1D1", "#C2C2C2", "#B3B3B3",
     "#A4A4A4", "#959595"]
  | .desert =>
    ["#FFE5B2", "#FFDB99", "#FFD180", "#FFC766",
     "#FFBD4D", "#FFB333", "#FFA91A", "#FF9F00"]
  | .plains =>
    ["#90EE90", "#7CEB7C", "#68E868", "#54E554",
     "#40E240", "#2CDF2C"]
  | .forest =>
    ["#228B22", "#1E7B1E", "#1A6B1A", "#165B16",
     "#124B12", "#0E3B0E"]
  | .jungle =>
    ["#004D00", "#004000", "#003300", "#002600",
     "#001900", "#000C00"]
  | .hills =>
    ["#8B4513", "#7A3D11", "#69350F", "#582D0D",
     "#47250B", "#361D09"]
  | .mountains =>
    ["#696969", "#5A5A5A", "#4B4B4B", "#3C3C3C",
     "#2D2D2D", "#1E1E1E"]
  | .snow_peaks => ["#FFFFFF", "#F2F2F2"]

/-- Python list indexing: a valid non-negative index, or a negative index
counted from the end; anything else is an `IndexError` (`none`). -/
def py_list_get (l : List String) (i : ℤ) : Option String :=
  if 0 ≤ i ∧ i < l.length then l[i.toNat]?
  else if i < 0 ∧ 0 ≤ i + l.length then l[(i + l.length).toNat]?
  else none

/-- One cell of the generated map (the dict of lines 447-452). -/
structure Cell : Type where
  elevation : ℚ
  climate : ℚ
  terrain_type : Terrain
  color : String
  deriving DecidableEq, Repr

/-- Embedding of `MapGenerator.get_biome_and_color` (lines 143-160):
water biomes index their palette by elevation, land biomes by a local noise
variation; the index is clamped above by `len - 1` but may be negative
(Python then indexes from the end). -/
def get_biome_and_color (elev_noise : ℚ → ℚ → ℚ) (elevation climate : ℚ)
    (x y : ℤ) : Option (Terrain × String) :=
  let bt := get_biome_type elevation climate
  let palette := palette_of bt
  let idx : ℤ :=
    if bt = .deep_ocean ∨ bt = .shallow_water then
      py_min (py_int (elevation * (palette.length : ℚ))) ((palette.length : ℤ) - 1)
    else
      py_min (py_int (smooth_noise elev_noise ((x : ℚ)/5) ((y : ℚ)/5) 2 * (palette.length : ℚ)))
        ((palette.length : ℤ) - 1)
  (py_list_get palette idx).map fun c => (bt, c)

/-! ### MapGenerator.find_river_sources (lines 304-313) and source sorting -/

/-- The grid positions in row-major order (`for y in range(height): for x in
range(width)`); empty ranges for non-positive dimensions, as in Python. -/
def grid_points (W H : ℤ) : List Pos :=
  (List.range H.toNat).flatMap fun y =>
    (List.range W.toNat).map fun x => ((Int.ofNat x, Int.ofNat y) : Pos)

/-- Embedding of `MapGenerator.find_river_sources`: each cell above the
source-elevation threshold consumes one draw from the random stream and is
kept when the draw is below `0.1`. -/
def find_river_sources (em : ℤ → ℤ → ℚ) (W H : ℤ) (rand : ℕ → ℚ) : List Pos :=
  ((grid_points W H).foldl
    (fun (acc : List Pos × ℕ) p =>
      if river_source_elevation_threshold < em p.2 p.1 then
        (if rand acc.2 < 1/10 then (acc.1 ++ [p], acc.2 + 1) else (acc.1, acc.2 + 1))
      else acc)
    ([], 0)).1

/-- Stable insertion for descending-by-elevation order: an element is placed
before the first element whose elevation is not larger, which preserves the
original order of equal keys, as Python's stable `sort` does. -/
def insert_desc (em : ℤ → ℤ → ℚ) (p : Pos) : List Pos → List Pos
  | [] => [p]
  | q :: l =>
    if em q.2 q.1 ≤ em p.2 p.1 then p :: q :: l else q :: insert_desc em p l

/-- `sources.sort(key=elevation, reverse=True)` — stable descending sort. -/
def sort_sources_desc (em : ℤ → ℤ → ℚ) (l : List Pos) : List Pos :=
  l.foldr (insert_desc em) []

/-! ### MapGenerator.apply_rivers_to_map (lines 344-410) and generate_map -/

/-- Embedding of `MapGenerator.apply_rivers_to_map`: first-pass widths and
cells, the connectivity-repair loop, then the per-cell overwrite that turns
river cells into `river` terrain with a width-indexed colour.  A missing
width entry for a river cell (`river_widths[pos]` raising `KeyError`) and a
river cell outside the grid (`IndexError`) are modelled as `none`. -/
def apply_rivers_to_map (em : ℤ → ℤ → ℚ) (W H : ℤ) (repair_fuel : ℕ)
    (grid : List (List Cell)) (paths : List (List Pos)) :
    Option (List (List Cell)) :=
  match repair_loop em W H repair_fuel (first_pass_cells paths, first_pass_widths paths) with
  | none => none
  | some st =>
    if st.1.all (fun p => decide (in_bounds W H p)) then
      grid.enum.mapM fun yrow =>
        yrow.2.enum.mapM fun xcell =>
          let p : Pos := ((xcell.1 : ℤ), (yrow.1 : ℤ))
          if p ∈ st.1 then
            match st.2 p with
            | none => none
            | some w =>
              match py_list_get (palette_of .river)
                  (py_min (py_int w) (((palette_of .river).length : ℤ) - 1)) with
              | none => none
              | some c =>
                some (Cell.mk xcell.2.elevation xcell.2.climate .river c)
          else some xcell.2
    else none

/-- The configuration state stored by `MapGenerator.__init__` (no validation
of any kind is performed there). -/
structure MapGenerator : Type where
  width : ℤ
  height : ℤ
  scale : ℚ
  deriving DecidableEq, Repr

/-- Embedding of `MapGenerator.__init__`: stores the dimensions and scale
unconditionally. -/
def mk_map_generator (width height : ℤ) (scale : ℚ) : MapGenerator :=
  MapGenerator.mk width height scale

/-- Embedding of `MapGenerator.generate_map`.  The two noise oracles are the
`normalized_noise` functions of the two `SimplexNoise` instances; `rand` and
`choice` are the `random.random` / `random.choice` oracles used for river
sources and plateau escapes.  A `ZeroDivisionError` from `x / scale` (only
reachable when there is at least one cell) is modelled as `none`.
`elevation = smooth_noise(x/scale, y/scale, elevation_noise, octaves=4)`. -/
def elevation_field (elev_noise : ℚ → ℚ → ℚ) (scale : ℚ) : ℤ → ℤ → ℚ :=
  fun y x => smooth_noise elev_noise ((x : ℚ)/scale) ((y : ℚ)/scale) 4

/-- `climate = smooth_noise(nx*0.5, ny*0.5, climate_noise, octaves=2)`. -/
def climate_field (clim_noise : ℚ → ℚ → ℚ) (scale : ℚ) : ℤ → ℤ → ℚ :=
  fun y x => smooth_noise clim_noise ((x : ℚ)/scale * (1/2)) ((y : ℚ)/scale * (1/2)) 2

/-- The second pass of `generate_map` (lines 438-454): the base grid of cells
with biome and colour, in row-major order; a cell whose colour lookup fails is
an error (`none`). -/
def base_grid (elev_noise clim_noise : ℚ → ℚ → ℚ) (W H : ℤ) (scale : ℚ) :
    Option (List (List Cell)) :=
  (List.range H.toNat).mapM fun y => (List.range W.toNat).mapM fun x =>
    (get_biome_and_color elev_noise
        (elevation_field elev_noise scale (Int.ofNat y) (Int.ofNat x))
        (climate_field clim_noise scale (Int.ofNat y) (Int.ofNat x))
        (Int.ofNat x) (Int.ofNat y)).map
      fun tc => Cell.mk (elevation_field elev_noise scale (Int.ofNat y) (Int.ofNat x))
        (climate_field clim_noise scale (Int.ofNat y) (Int.ofNat x)) tc.1 tc.2

def generate_map (elev_noise clim_noise : ℚ → ℚ → ℚ) (W H : ℤ) (scale : ℚ)
    (rand : ℕ → ℚ) (choice : List Pos → Pos)
    (bfs_fuel trace_fuel repair_fuel : ℕ) : Option (List (List Cell)) :=
  if scale = 0 ∧ 0 < W ∧ 0 < H then none
  else
    match generate_rivers (elevation_field elev_noise scale) W H choice bfs_fuel trace_fuel
        (sort_sources_desc (elevation_field elev_noise scale)
          (find_river_sources (elevation_field elev_noise scale) W H rand)) with
    | none => none
    | some rst =>
      match base_grid elev_noise clim_noise W H scale with
      | none => none
      | some grid => apply_rivers_to_map (elevation_field elev_noise scale) W H
          repair_fuel grid rst.1

/-! ### Generic `Option.mapM` lemmas -/

lemma mapM_eq_some_of {α β : Type} (f : α → Option β) (g : α → β) :
    ∀ l : List α, (∀ a ∈ l, f a = some (g a)) → l.mapM f = some (l.map g) := by
  intro l
  induction l with
  | nil => intro _; rfl
  | cons a l ih =>
    intro h
    rw [List.mapM_cons, h a (by simp), ih (fun b hb => h b (by simp [hb]))]
    rfl

lemma mapM_some_proj {α β γ : Type} (f : α → Option β) (pr : β → γ) (pg : α → γ) :
    ∀ (l : List α) (m : List β), l.mapM f = some m →
      (∀ a ∈ l, ∀ b, f a = some b → pr b = pg a) → m.map pr = l.map pg := by
  intro l
  induction l with
  | nil =>
    intro m hm _
    rw [List.mapM_nil] at hm
    obtain rfl : [] = m := by injection hm
    rfl
  | cons a l ih =>
    intro m hm hp
    rw [List.mapM_cons] at hm
    cases hfa : f a with
    | none => rw [hfa] at hm; simp at hm
    | some b =>
      rw [hfa] at hm
      cases hml : l.mapM f with
      | none => rw [hml] at hm; simp at hm
      | some ms =>
        rw [hml] at hm
        obtain rfl : b :: ms = m := by simpa using hm
        rw [List.map_cons, List.map_cons, hp a (by simp) b hfa,
          ih ms hml (fun x hx => hp x (by simp [hx]))]

/-! ### Degenerate dimensions -/

lemma flatMap_nil_of {α β : Type} (l : List α) (f : α → List β)
    (h : ∀ a ∈ l, f a = []) : l.flatMap f = [] := by
  induction l with
  | nil => rfl
  | cons a t ih =>
    rw [List.flatMap_cons, h a (by simp), ih (fun x hx => h x (by simp [hx]))]
    rfl

lemma grid_points_nil {W H : ℤ} (hdim : W ≤ 0 ∨ H ≤ 0) : grid_points W H = [] := by
  rcases hdim with hW | hH
  · exact flatMap_nil_of _ _ (fun a _ => by
      rw [Int.toNat_of_nonpos hW, List.range_zero, List.map_nil])
  · rw [grid_points, Int.toNat_of_nonpos hH, List.range_zero, List.flatMap_nil]

/-- Mapping the row transformer over any number of empty rows succeeds and
returns the same empty rows. -/
lemma mapM_enumFrom_replicate_nil {β : Type} (F : ℕ × List Cell → Option (List β))
    (hF : ∀ k, F (k, []) = some []) :
    ∀ n k, (List.enumFrom k (List.replicate n ([] : List Cell))).mapM F =
      some (List.replicate n ([] : List β)) := by
  intro n
  induction n with
  | zero => intro k; rfl
  | succ n ih =>
    intro k
    rw [List.replicate_succ, List.enumFrom_cons, List.mapM_cons, hF, ih (k + 1)]
    rfl

/-! ## Claim C7 -/

/-- C7 counterexample: with width `0` and height `2`, construction succeeds
(no validation exists) and `generate_map` returns a degenerate grid of two
empty rows — it does not fail with any invalid-configuration signal. -/
theorem C7_counterexample :
    generate_map (fun _ _ => 0) (fun _ _ => 0) 0 2 20 (fun _ => 0) head_choice 1 1 1 =
      some [[], []] ∧
    (mk_map_generator (-5) (-3) 20).width = -5 ∧
    (mk_map_generator (-5) (-3) 20).height = -3 := ⟨by rfl, rfl, rfl⟩

/-- C7 amended: no dimension validation exists anywhere: construction stores
any width/height/scale unchecked, and for `width ≤ 0` or `height ≤ 0`
`generate_map` does not fail — it returns the degenerate grid of
`max(height, 0)` empty rows (which is complete for those dimensions; no
partially-populated grid of positive dimensions is produced, and no
invalid-configuration signal exists). -/
theorem C7_amended_no_validation (en cn : ℚ → ℚ → ℚ) (W H : ℤ) (scale : ℚ)
    (rand : ℕ → ℚ) (choice : List Pos → Pos) (bf tf rf : ℕ)
    (hdim : W ≤ 0 ∨ H ≤ 0) (hrf : 1 ≤ rf) :
    generate_map en cn W H scale rand choice bf tf rf =
      some (List.replicate H.toNat []) ∧
    (∀ (w h : ℤ) (s : ℚ), mk_map_generator w h s = MapGenerator.mk w h s) := by
  refine ⟨?_, fun w h s => rfl⟩
  have hguard : ¬ (scale = 0 ∧ 0 < W ∧ 0 < H) := by
    rintro ⟨_, hw, hh⟩
    rcases hdim with h | h <;> omega
  have hsrc : find_river_sources (elevation_field en scale) W H rand = [] := by
    unfold find_river_sources
    rw [grid_points_nil hdim]
    rfl
  have hgrid : base_grid en cn W H scale = some (List.replicate H.toNat []) := by
    unfold base_grid
    rcases hdim with hW | hH
    · have h1 := mapM_eq_some_of
        (fun y => (List.range W.toNat).mapM fun x =>
          (get_biome_and_color en
              (elevation_field en scale (Int.ofNat y) (Int.ofNat x))
              (climate_field cn scale (Int.ofNat y) (Int.ofNat x))
              (Int.ofNat x) (Int.ofNat y)).map
            fun tc => Cell.mk (elevation_field en scale (Int.ofNat y) (Int.ofNat x))
              (climate_field cn scale (Int.ofNat y) (Int.ofNat x)) tc.1 tc.2)
        (fun _ => []) (List.range H.toNat)
        (fun y _ => by
          rw [Int.toNat_of_nonpos hW, List.range_zero]
          exact List.mapM_nil _)
      rw [h1]
      congr 1
      rw [show (fun (_ : ℕ) => ([] : List Cell)) = Function.const ℕ [] from rfl,
        List.map_const, List.length_range]
    · rw [Int.toNat_of_nonpos hH, List.range_zero, List.mapM_nil, List.replicate_zero]
      rfl
  have happly : apply_rivers_to_map (elevation_field en scale) W H rf
      (List.replicate H.toNat []) [] = some (List.replicate H.toNat []) := by
    obtain ⟨rf', rfl⟩ : ∃ rf', rf = rf' + 1 := ⟨rf - 1, by omega⟩
    have hrl : repair_loop (elevation_field en scale) W H (rf' + 1)
        (first_pass_cells [], first_pass_widths []) =
        some (first_pass_cells [], first_pass_widths []) := rfl
    unfold apply_rivers_to_map
    rw [hrl]
    show (List.replicate H.toNat ([] : List Cell)).enum.mapM _ =
      some (List.replicate H.toNat [])
    exact mapM_enumFrom_replicate_nil _ (fun k => rfl) H.toNat 0
  unfold generate_map
  rw [if_neg hguard, hsrc]
  show (match base_grid en cn W H scale with
    | none => none
    | some grid =>
        apply_rivers_to_map (elevation_field en scale) W H rf grid []) = _
  rw [hgrid]
  exact happly

/-- Closed witness for `C7_amended_no_validation`. -/
theorem C7_amended_no_validation_witness :
    generate_map (fun _ _ => 0) (fun _ _ => 0) (-3) 1 20 (fun _ => 0) head_choice
      1 1 1 = some (List.replicate (1 : ℤ).toNat []) :=
  (C7_amended_no_validation (fun _ _ => 0) (fun _ _ => 0) (-3) 1 20 (fun _ => 0)
    head_choice 1 1 1 (Or.inl (by decide)) (by decide)).1

/-! ## Claim C10 -/

/-- The elevation and climate fields of a generated grid. -/
def field_proj (g : List (List Cell)) : List (List (ℚ × ℚ)) :=
  g.map fun row => row.map fun c => (c.elevation, c.climate)

/-- Mapping a function of the second component over an enumeration is mapping
it over the underlying list. -/
lemma enum_map_snd_comp {α β : Type} (f : α → β) (l : List α) :
    l.enum.map (fun p => f p.2) = l.map f := by
  calc l.enum.map (fun p => f p.2)
      = (l.enum.map Prod.snd).map f := by rw [List.map_map]; rfl
    _ = l.map f := by rw [List.enum_map_snd]

/-- Applying rivers changes only terrain types and colours: the elevation and
climate fields pass through untouched. -/
lemma apply_rivers_field_proj (em : ℤ → ℤ → ℚ) (W H : ℤ) (rf : ℕ)
    (grid : List (List Cell)) (paths : List (List Pos)) (g' : List (List Cell))
    (h : apply_rivers_to_map em W H rf grid paths = some g') :
    field_proj g' = field_proj grid := by
  unfold apply_rivers_to_map at h
  split at h
  · exact absurd h (by simp)
  · split at h
    · rename_i st hst hall
      have houter := mapM_some_proj _
        (fun row => row.map fun c => (c.elevation, c.climate))
        (fun yrow => yrow.2.map fun c => (c.elevation, c.climate))
        grid.enum g' h ?_
      · unfold field_proj
        rw [houter]
        exact enum_map_snd_comp (fun row => row.map fun c => (c.elevation, c.climate)) grid
      · intro yrow _ row' hrow'
        have hinner := mapM_some_proj _
          (fun c => (c.elevation, c.climate))
          (fun xc => (xc.2.elevation, xc.2.climate))
          yrow.2.enum row' hrow' ?_
        · dsimp only
          rw [hinner]
          exact enum_map_snd_comp (fun c => (c.elevation, c.climate)) yrow.2
        · intro xc _ c hc
          dsimp only at hc
          split at hc
          · split at hc
            · exact absurd hc (by simp)
            · split at hc
              · exact absurd hc (by simp)
              · obtain rfl : Cell.mk xc.2.elevation xc.2.climate .river _ = c := by
                  injection hc
                rfl
          · obtain rfl : xc.2 = c := by injection hc
            rfl
    · exact absurd h (by simp)

/-- The elevation/climate fields of any successful `base_grid` are the pure
noise fields. -/
lemma base_grid_field (en cn : ℚ → ℚ → ℚ) (W H : ℤ) (scale : ℚ)
    (grid : List (List Cell)) (h : base_grid en cn W H scale = some grid) :
    field_proj grid = (List.range H.toNat).map fun y => (List.range W.toNat).map fun x =>
      (elevation_field en scale (Int.ofNat y) (Int.ofNat x),
       climate_field cn scale (Int.ofNat y) (Int.ofNat x)) := by
  unfold base_grid at h
  unfold field_proj
  refine mapM_some_proj _ (fun row => row.map fun c => (c.elevation, c.climate))
    (fun y => (List.range W.toNat).map fun x =>
      (elevation_field en scale (Int.ofNat y) (Int.ofNat x),
       climate_field cn scale (Int.ofNat y) (Int.ofNat x)))
    (List.range H.toNat) grid h ?_
  intro y _ row hrow
  refine mapM_some_proj _ (fun c => (c.elevation, c.climate))
    (fun x => (elevation_field en scale (Int.ofNat y) (Int.ofNat x),
       climate_field cn scale (Int.ofNat y) (Int.ofNat x)))
    (List.range W.toNat) row hrow ?_
  intro x _ c hc
  cases hbc : get_biome_and_color en (elevation_field en scale (Int.ofNat y) (Int.ofNat x))
      (climate_field cn scale (Int.ofNat y) (Int.ofNat x)) (Int.ofNat x) (Int.ofNat y) with
  | none => rw [hbc] at hc; exact absurd hc (by simp)
  | some tc =>
    rw [hbc] at hc
    obtain rfl : Cell.mk (elevation_field en scale (Int.ofNat y) (Int.ofNat x))
        (climate_field cn scale (Int.ofNat y) (Int.ofNat x)) tc.1 tc.2 = c := by
      simpa using hc
    rfl

/-- Any successful `generate_map` run has elevation/climate fields equal to
the deterministic noise fields — independent of the river oracles. -/
lemma generate_map_field (en cn : ℚ → ℚ → ℚ) (W H : ℤ) (scale : ℚ)
    (rand : ℕ → ℚ) (choice : List Pos → Pos) (bf tf rf : ℕ)
    (m : List (List Cell))
    (h : generate_map en cn W H scale rand choice bf tf rf = some m) :
    field_proj m = (List.range H.toNat).map fun y => (List.range W.toNat).map fun x =>
      (elevation_field en scale (Int.ofNat y) (Int.ofNat x),
       climate_field cn scale (Int.ofNat y) (Int.ofNat x)) := by
  unfold generate_map at h
  split at h
  · exact absurd h (by simp)
  · split at h
    · exact absurd h (by simp)
    · split at h
      · exact absurd h (by simp)
      · rename_i rst hrst grid hgrid
        rw [apply_rivers_field_proj _ _ _ _ _ _ _ h]
        exact base_grid_field en cn W H scale grid hgrid

/-- C10: two `generate_map` runs over noise sources constructed with the same
explicit seeds (and any prior global random states), any dimensions/scale,
and arbitrary — possibly different — river randomness, produce identical
elevation and climate fields: the fields are a deterministic function of
`(x, y)`, the seeds, and the fixed noise parameters. -/
theorem C10_seeded_field_determinism
    (noise_eval : List ℕ → ℚ → ℚ → ℚ) (shuffle : RandState → List ℕ × RandState)
    (seed_e seed_c : ℕ) (g1 g2 g1' g2' : RandState)
    (W H : ℤ) (scale : ℚ) (rand1 rand2 : ℕ → ℚ) (choice1 choice2 : List Pos → Pos)
    (bf1 tf1 rf1 bf2 tf2 rf2 : ℕ) (m1 m2 : List (List Cell))
    (h1 : generate_map (noise_eval (simplex_init shuffle (some seed_e) g1).1.perm)
        (noise_eval (simplex_init shuffle (some seed_c) g2).1.perm)
        W H scale rand1 choice1 bf1 tf1 rf1 = some m1)
    (h2 : generate_map (noise_eval (simplex_init shuffle (some seed_e) g1').1.perm)
        (noise_eval (simplex_init shuffle (some seed_c) g2').1.perm)
        W H scale rand2 choice2 bf2 tf2 rf2 = some m2) :
    field_proj m1 = field_proj m2 := by
  rw [generate_map_field _ _ _ _ _ _ _ _ _ _ _ h1,
    generate_map_field _ _ _ _ _ _ _ _ _ _ _ h2]
  rfl

/-- Closed witness for `C10_seeded_field_determinism`: two runs with the same
seeds but different prior global states, different river oracles and
different fuels. -/
theorem C10_seeded_field_determinism_witness :
    field_proj [[], []] = field_proj [[], []] :=
  C10_seeded_field_determinism (fun _ _ _ => 0) shuffle0 0 0 0 1 2 3 0 2 20
    (fun _ => 1) (fun _ => 0) head_choice (fun l => l.headD (1, 1)) 2 2 2 3 3 3
    [[], []] [[], []] (by rfl) (by rfl)

/-! ### Termination machinery: the grid as a finite set -/

/-- The in-bounds grid positions as a finite set. -/
def bounds_finset (W H : ℤ) : Finset Pos := Finset.Ico 0 W ×ˢ Finset.Ico 0 H

lemma mem_bounds_finset (W H : ℤ) (p : Pos) :
    p ∈ bounds_finset W H ↔ in_bounds W H p := by
  unfold bounds_finset in_bounds
  rw [Finset.mem_product, Finset.mem_Ico, Finset.mem_Ico]
  tauto

lemma card_bounds_finset (W H : ℤ) :
    (bounds_finset W H).card = W.toNat * H.toNat := by
  unfold bounds_finset
  rw [Finset.card_product, Int.card_Ico, Int.card_Ico, sub_zero, sub_zero]

lemma get_neighbors_in_bounds (W H : ℤ) (p : Pos) :
    ∀ n ∈ get_neighbors W H p, in_bounds W H n := by
  intro n hn
  unfold get_neighbors at hn
  rw [List.mem_filterMap] at hn
  obtain ⟨d, _, hd⟩ := hn
  by_cases hb : in_bounds W H (p.1 + d.1, p.2 + d.2)
  · rw [if_pos hb] at hd
    obtain rfl : (p.1 + d.1, p.2 + d.2) = n := by injection hd
    exact hb
  · rw [if_neg hb] at hd
    exact absurd hd (by simp)

/-! ### Termination of the plateau BFS -/

lemma bfs_scan_nil (em : ℤ → ℤ → ℚ) (e : ℚ) (fv : Finset Pos)
    (acc : List (Pos × List Pos)) (path : List Pos) :
    bfs_scan em e [] fv acc path = .inr (fv, acc) := rfl

lemma bfs_scan_cons (em : ℤ → ℤ → ℚ) (e : ℚ) (n : Pos) (ns : List Pos)
    (fv : Finset Pos) (acc : List (Pos × List Pos)) (path : List Pos) :
    bfs_scan em e (n :: ns) fv acc path =
      if n ∈ fv then bfs_scan em e ns fv acc path
      else if em n.2 n.1 < e then
        Sum.inl (match path with | [] => n | h :: _ => h)
      else if em n.2 n.1 = e then
        bfs_scan em e ns (insert n fv) (acc ++ [(n, path ++ [n])]) path
      else bfs_scan em e ns fv acc path := rfl

/-- Bookkeeping of one BFS neighbour scan: the visited set grows by exactly
the number of enqueued items, it only grows, and every new member came from
the scanned neighbour list. -/
lemma bfs_scan_fv (em : ℤ → ℤ → ℚ) (e : ℚ) :
    ∀ (ns : List Pos) (fv : Finset Pos) (acc : List (Pos × List Pos))
      (path : List Pos) (fv2 : Finset Pos) (items : List (Pos × List Pos)),
      bfs_scan em e ns fv acc path = .inr (fv2, items) →
      fv2.card + acc.length = fv.card + items.length ∧ fv ⊆ fv2 ∧
        ∀ x ∈ fv2, x ∈ fv ∨ x ∈ ns := by
  intro ns
  induction ns with
  | nil =>
    intro fv acc path fv2 items h
    rw [bfs_scan_nil] at h
    obtain h' : (fv, acc) = (fv2, items) := by injection h
    obtain ⟨h1, h2⟩ : fv = fv2 ∧ acc = items :=
      ⟨congrArg Prod.fst h', congrArg Prod.snd h'⟩
    subst h1; subst h2
    exact ⟨rfl, Finset.Subset.refl _, fun x hx => Or.inl hx⟩
  | cons n ns ih =>
    intro fv acc path fv2 items h
    rw [bfs_scan_cons] at h
    by_cases h1 : n ∈ fv
    · rw [if_pos h1] at h
      obtain ⟨hc, hs, hm⟩ := ih fv acc path fv2 items h
      exact ⟨hc, hs, fun x hx => (hm x hx).imp id (by simp +contextual)⟩
    · rw [if_neg h1] at h
      by_cases h2 : em n.2 n.1 < e
      · rw [if_pos h2] at h
        exact absurd h (by simp)
      · rw [if_neg h2] at h
        by_cases h3 : em n.2 n.1 = e
        · rw [if_pos h3] at h
          obtain ⟨hc, hs, hm⟩ := ih (insert n fv) (acc ++ [(n, path ++ [n])]) path fv2 items h
          rw [List.length_append, List.length_singleton, Finset.card_insert_of_not_mem h1]
            at hc
          refine ⟨by omega, fun x hx => hs (Finset.mem_insert_of_mem hx), ?_⟩
          intro x hx
          rcases hm x hx with hx' | hx'
          · rcases Finset.mem_insert.mp hx' with rfl | hx''
            · exact Or.inr (by simp)
            · exact Or.inl hx''
          · exact Or.inr (by simp [hx'])
        · rw [if_neg h3] at h
          obtain ⟨hc, hs, hm⟩ := ih fv acc path fv2 items h
          exact ⟨hc, hs, fun x hx => (hm x hx).imp id (by simp +contextual)⟩

/-- The BFS terminates: with fuel exceeding `queue length + undiscovered grid
cells` it always reaches a result. -/
lemma bfs_flow_total (em : ℤ → ℤ → ℚ) (W H : ℤ) (e : ℚ) :
    ∀ (fuel : ℕ) (queue : List (Pos × List Pos)) (fv : Finset Pos),
      (∀ x ∈ fv, in_bounds W H x) →
      queue.length + (bounds_finset W H).card < fuel + fv.card →
      (bfs_flow em W H e fuel queue fv).isSome := by
  intro fuel
  induction fuel with
  | zero =>
    intro queue fv hb hlt
    exfalso
    have hsub : fv ⊆ bounds_finset W H :=
      fun x hx => (mem_bounds_finset W H x).mpr (hb x hx)
    have := Finset.card_le_card hsub
    omega
  | succ fuel ih =>
    intro queue fv hb hlt
    cases queue with
    | nil => simp [bfs_flow]
    | cons hd rest =>
      obtain ⟨c, path⟩ := hd
      cases hscan : bfs_scan em e (get_neighbors W H c) fv [] path with
      | inl q => simp [bfs_flow, hscan]
      | inr pr =>
        obtain ⟨fv2, items⟩ := pr
        obtain ⟨hcard, hsub, hmem⟩ :=
          bfs_scan_fv em e (get_neighbors W H c) fv [] path fv2 items hscan
        have hb2 : ∀ x ∈ fv2, in_bounds W H x := by
          intro x hx
          rcases hmem x hx with hx' | hx'
          · exact hb x hx'
          · exact get_neighbors_in_bounds W H c x hx'
        have hlt2 : (rest ++ items).length + (bounds_finset W H).card <
            fuel + fv2.card := by
          rw [List.length_append]
          simp only [List.length_cons] at hlt
          simp only [List.length_nil, add_zero] at hcard
          omega
        simp only [bfs_flow, hscan]
        exact ih (rest ++ items) fv2 hb2 hlt2

/-! ### Termination of the connectivity-repair loop -/

lemma scan_candidates_not_mem (em : ℤ → ℤ → ℚ) (W H : ℤ) (cells : List Pos) :
    ∀ q ∈ scan_candidates em W H cells, q ∉ cells := by
  intro q hq
  obtain ⟨p, hp, d, hd, hg, rfl⟩ := (mem_scan_candidates em W H cells q).mp hq
  unfold elbow_choice
  split
  · exact hg.2.2.1
  · exact hg.2.2.2

lemma scan_candidates_in_bounds (em : ℤ → ℤ → ℚ) (W H : ℤ) (cells : List Pos)
    (hcells : ∀ p ∈ cells, in_bounds W H p) :
    ∀ q ∈ scan_candidates em W H cells, in_bounds W H q := by
  intro q hq
  obtain ⟨p, hp, d, hd, hg, rfl⟩ := (mem_scan_candidates em W H cells q).mp hq
  have hpb := hcells p hp
  have hnb := hg.1
  unfold in_bounds at hpb hnb ⊢
  unfold elbow_choice
  split <;> simp_all

lemma add_candidates_spec (W H : ℤ) :
    ∀ (cands : List Pos) (st : List Pos × (Pos → Option ℚ)),
      st.1.length ≤ (add_candidates W H st cands).1.length ∧
      (st.1.Nodup → (∀ p ∈ st.1, in_bounds W H p) → (∀ p ∈ cands, in_bounds W H p) →
        (add_candidates W H st cands).1.Nodup ∧
          ∀ p ∈ (add_candidates W H st cands).1, in_bounds W H p) ∧
      ((∃ q ∈ cands, q ∉ st.1) →
        st.1.length + 1 ≤ (add_candidates W H st cands).1.length) := by
  intro cands
  induction cands with
  | nil =>
    intro st
    refine ⟨le_refl _, fun hn hb _ => ⟨hn, hb⟩, ?_⟩
    rintro ⟨q, hq, _⟩
    exact absurd hq (by simp)
  | cons c cs ih =>
    intro st
    have hfold : add_candidates W H st (c :: cs) =
        add_candidates W H (add_candidate W H st c) cs := rfl
    rw [hfold]
    obtain ⟨ih1, ih2, ih3⟩ := ih (add_candidate W H st c)
    by_cases hc : c ∈ st.1
    · have hfst : (add_candidate W H st c).1 = st.1 := by
        rw [add_candidate_fst, if_pos hc]
      rw [hfst] at ih1 ih2 ih3
      refine ⟨ih1, fun hn hb hcb => ih2 hn hb (fun p hp => hcb p (by simp [hp])), ?_⟩
      rintro ⟨q, hq, hq2⟩
      rcases List.mem_cons.mp hq with rfl | hq3
      · exact absurd hc hq2
      · exact ih3 ⟨q, hq3, hq2⟩
    · have hfst : (add_candidate W H st c).1 = st.1 ++ [c] := by
        rw [add_candidate_fst, if_neg hc]
      rw [hfst] at ih1 ih2 ih3
      rw [List.length_append, List.length_singleton] at ih1
      refine ⟨by omega, ?_, fun _ => by omega⟩
      intro hn hb hcb
      refine ih2 ?_ ?_ (fun p hp => hcb p (by simp [hp]))
      · rw [List.nodup_append]
        exact ⟨hn, List.nodup_singleton c, by simpa using hc⟩
      · intro p hp
        rcases List.mem_append.mp hp with hp' | hp'
        · exact hb p hp'
        · obtain rfl : p = c := by simpa using hp'
          exact hcb p (by simp)

/-- The connectivity-repair loop terminates: river cells are never removed,
every iteration adds at least one new in-bounds cell, and the grid is
finite. -/
lemma repair_loop_total (em : ℤ → ℤ → ℚ) (W H : ℤ) :
    ∀ (fuel : ℕ) (st : List Pos × (Pos → Option ℚ)),
      st.1.Nodup → (∀ p ∈ st.1, in_bounds W H p) →
      (bounds_finset W H).card < fuel + st.1.length →
      (repair_loop em W H fuel st).isSome := by
  intro fuel
  induction fuel with
  | zero =>
    intro st hn hb hlt
    exfalso
    have h1 : st.1.toFinset.card = st.1.length := List.toFinset_card_of_nodup hn
    have h2 : st.1.toFinset ⊆ bounds_finset W H := by
      intro x hx
      exact (mem_bounds_finset W H x).mpr (hb x (List.mem_toFinset.mp hx))
    have := Finset.card_le_card h2
    omega
  | succ fuel ih =>
    intro st hn hb hlt
    by_cases hc : scan_candidates em W H st.1 = []
    · rw [repair_loop]
      simp [hc]
    · obtain ⟨q, hq⟩ := List.exists_mem_of_ne_nil _ hc
      have hq2 : q ∉ st.1 := scan_candidates_not_mem em W H st.1 q hq
      obtain ⟨h1, h2, h3⟩ := add_candidates_spec W H (scan_candidates em W H st.1) st
      obtain ⟨hn2, hb2⟩ := h2 hn hb (scan_candidates_in_bounds em W H st.1 hb)
      have hgrow := h3 ⟨q, hq, hq2⟩
      have hlt2 : (bounds_finset W H).card <
          fuel + (add_candidates W H st (scan_candidates em W H st.1)).1.length := by
        omega
      rw [repair_loop]
      split
      · simp
      · exact ih _ hn2 hb2 hlt2

/-! ### Plateau distance: the variant of the trace loop's flat moves -/

/-- A cell with a strictly lower in-bounds neighbour (relative to the fixed
search elevation `e`). -/
def low_adj (em : ℤ → ℤ → ℚ) (W H : ℤ) (e : ℚ) (c : Pos) : Prop :=
  ∃ n ∈ get_neighbors W H c, em n.2 n.1 < e

instance low_adj.decide (em : ℤ → ℤ → ℚ) (W H : ℤ) (e : ℚ) (c : Pos) :
    Decidable (low_adj em W H e c) := by
  unfold low_adj; exact inferInstance

/-- The cells reachable from `v` in at most `k` steps through cells of
elevation exactly `e` (cumulative). -/
def flat_reach (em : ℤ → ℤ → ℚ) (W H : ℤ) (e : ℚ) (v : Pos) : ℕ → Finset Pos
  | 0 => {v}
  | k + 1 => flat_reach em W H e v k ∪ (flat_reach em W H e v k).biUnion
      (fun c => ((get_neighbors W H c).filter (fun n => decide (em n.2 n.1 = e))).toFinset)

/-- "Some cell within flat distance `k` of `v` has a lower neighbour". -/
def hasD (em : ℤ → ℤ → ℚ) (W H : ℤ) (e : ℚ) (v : Pos) (k : ℕ) : Prop :=
  ∃ c ∈ flat_reach em W H e v k, low_adj em W H e c

instance hasD.decide (em : ℤ → ℤ → ℚ) (W H : ℤ) (e : ℚ) (v : Pos) (k : ℕ) :
    Decidable (hasD em W H e v k) := by
  unfold hasD; exact inferInstance

/-- Flat chains: `flat_chain em W H e v pl c` means `pl` lists the cells of a
king-move walk from `v` ending at `c`, every listed cell having elevation
exactly `e`. -/
inductive flat_chain (em : ℤ → ℤ → ℚ) (W H : ℤ) (e : ℚ) : Pos → List Pos → Pos → Prop
  | nil : ∀ v, flat_chain em W H e v [] v
  | snoc : ∀ v pl c n, flat_chain em W H e v pl c → n ∈ get_neighbors W H c →
      em n.2 n.1 = e → flat_chain em W H e v (pl ++ [n]) n

/-- A distance bound beyond which every plateau is exhausted. -/
def DBound (W H : ℤ) : ℕ := (bounds_finset W H).card + 1

/-- The plateau distance of `v`: the least flat distance to a cell with a
lower neighbour, or `0` when no such cell is reachable. -/
def Dtot (em : ℤ → ℤ → ℚ) (W H : ℤ) (e : ℚ) (v : Pos) : ℕ :=
  if h : hasD em W H e v (DBound W H) then
    Nat.find (⟨DBound W H, h⟩ : ∃ k, hasD em W H e v k)
  else 0

lemma flat_reach_mono (em : ℤ → ℤ → ℚ) (W H : ℤ) (e : ℚ) (v : Pos) :
    ∀ {j k : ℕ}, j ≤ k → flat_reach em W H e v j ⊆ flat_reach em W H e v k := by
  intro j k hjk
  induction hjk with
  | refl => exact Finset.Subset.refl _
  | step h ih => exact ih.trans Finset.subset_union_left

lemma self_mem_flat_reach (em : ℤ → ℤ → ℚ) (W H : ℤ) (e : ℚ) (v : Pos) (k : ℕ) :
    v ∈ flat_reach em W H e v k := by
  induction k with
  | zero => exact Finset.mem_singleton_self v
  | succ k ih => exact Finset.mem_union_left _ ih

lemma mem_flat_reach_succ (em : ℤ → ℤ → ℚ) (W H : ℤ) (e : ℚ) (v c n : Pos) (k : ℕ)
    (hc : c ∈ flat_reach em W H e v k) (hn : n ∈ get_neighbors W H c)
    (hf : em n.2 n.1 = e) : n ∈ flat_reach em W H e v (k + 1) := by
  refine Finset.mem_union_right _ (Finset.mem_biUnion.mpr ⟨c, hc, ?_⟩)
  rw [List.mem_toFinset, List.mem_filter]
  exact ⟨hn, by simp [hf]⟩

lemma flat_chain_reach (em : ℤ → ℤ → ℚ) (W H : ℤ) (e : ℚ) {v : Pos} {pl : List Pos}
    {c : Pos} (h : flat_chain em W H e v pl c) :
    c ∈ flat_reach em W H e v pl.length := by
  induction h with
  | nil => exact Finset.mem_singleton_self v
  | snoc pl c n hch hn hf ih =>
    rw [List.length_append, List.length_singleton]
    exact mem_flat_reach_succ em W H e v c n pl.length ih hn hf

lemma flat_chain_nil_inv (em : ℤ → ℤ → ℚ) (W H : ℤ) (e : ℚ) {v c : Pos} {pl : List Pos}
    (h : flat_chain em W H e v pl c) (hpl : pl = []) : c = v := by
  cases h with
  | nil => rfl
  | snoc pl' c' n hch hn hf => exact absurd hpl (by simp)

lemma flat_chain_cons_inv (em : ℤ → ℤ → ℚ) (W H : ℤ) (e : ℚ) :
    ∀ {pl : List Pos} {v c : Pos}, flat_chain em W H e v pl c →
      ∀ hd tl, pl = hd :: tl →
        hd ∈ get_neighbors W H v ∧ em hd.2 hd.1 = e ∧ flat_chain em W H e hd tl c := by
  intro pl v c h
  induction h with
  | nil => intro hd tl heq; exact absurd heq (by simp)
  | snoc pl c n hch hn hf ih =>
    intro hd tl heq
    cases pl with
    | nil =>
      obtain ⟨rfl, rfl⟩ : n = hd ∧ ([] : List Pos) = tl := by
        rw [List.nil_append] at heq
        exact ⟨by injection heq, by injection heq⟩
      obtain rfl : c = v := flat_chain_nil_inv em W H e hch rfl
      exact ⟨hn, hf, flat_chain.nil n⟩
    | cons h' t' =>
      obtain ⟨rfl, htl⟩ : h' = hd ∧ t' ++ [n] = tl := by
        rw [List.cons_append] at heq
        exact ⟨by injection heq, by injection heq⟩
      obtain ⟨h1, h2, h3⟩ := ih h' t' rfl
      rw [← htl]
      exact ⟨h1, h2, flat_chain.snoc h' t' c n h3 hn hf⟩

lemma hasD_mono (em : ℤ → ℤ → ℚ) (W H : ℤ) (e : ℚ) (v : Pos) {j k : ℕ}
    (hjk : j ≤ k) (h : hasD em W H e v j) : hasD em W H e v k := by
  obtain ⟨c, hc, hla⟩ := h
  exact ⟨c, flat_reach_mono em W H e v hjk hc, hla⟩

lemma Dtot_le (em : ℤ → ℤ → ℚ) (W H : ℤ) (e : ℚ) (v : Pos) {j : ℕ}
    (hj : hasD em W H e v j) (hjb : j ≤ DBound W H) : Dtot em W H e v ≤ j := by
  unfold Dtot
  rw [dif_pos (hasD_mono em W H e v hjb hj)]
  exact Nat.find_le hj

lemma Dtot_eq (em : ℤ → ℤ → ℚ) (W H : ℤ) (e : ℚ) (v : Pos) {L : ℕ}
    (hL : hasD em W H e v L) (hLb : L ≤ DBound W H)
    (hmin : ∀ j < L, ¬ hasD em W H e v j) : Dtot em W H e v = L := by
  have h1 := Dtot_le em W H e v hL hLb
  unfold Dtot at h1 ⊢
  rw [dif_pos (hasD_mono em W H e v hLb hL)] at h1 ⊢
  exact le_antisymm h1 ((Nat.le_find_iff _ L).mpr hmin)

lemma Dtot_le_DBound (em : ℤ → ℤ → ℚ) (W H : ℤ) (e : ℚ) (v : Pos) :
    Dtot em W H e v ≤ DBound W H := by
  unfold Dtot
  split
  · exact Nat.find_le (by assumption)
  · exact Nat.zero_le _

/-! ### Correctness of the plateau BFS -/

/-- The early return of a neighbour scan comes from a strictly lower
neighbour, returning the recorded path's first step (or the lower cell for an
empty path). -/
lemma bfs_scan_inl (em : ℤ → ℤ → ℚ) (e : ℚ) :
    ∀ (ns : List Pos) (fv : Finset Pos) (acc : List (Pos × List Pos))
      (path : List Pos) (q : Pos),
      bfs_scan em e ns fv acc path = .inl q →
      ∃ n ∈ ns, em n.2 n.1 < e ∧ q = (match path with | [] => n | h :: _ => h) := by
  intro ns
  induction ns with
  | nil =>
    intro fv acc path q h
    rw [bfs_scan_nil] at h
    exact absurd h (by simp)
  | cons n ns ih =>
    intro fv acc path q h
    rw [bfs_scan_cons] at h
    by_cases h1 : n ∈ fv
    · rw [if_pos h1] at h
      obtain ⟨m, hm, hml, hmq⟩ := ih fv acc path q h
      exact ⟨m, by simp [hm], hml, hmq⟩
    · rw [if_neg h1] at h
      by_cases h2 : em n.2 n.1 < e
      · rw [if_pos h2] at h
        exact ⟨n, by simp, h2, (Sum.inl.inj h).symm⟩
      · rw [if_neg h2] at h
        by_cases h3 : em n.2 n.1 = e
        · rw [if_pos h3] at h
          obtain ⟨m, hm, hml, hmq⟩ := ih _ _ path q h
          exact ⟨m, by simp [hm], hml, hmq⟩
        · rw [if_neg h3] at h
          obtain ⟨m, hm, hml, hmq⟩ := ih fv acc path q h
          exact ⟨m, by simp [hm], hml, hmq⟩

/-- Full account of a neighbour scan that does not return early: the enqueued
items are exactly the freshly discovered flat neighbours (with extended
paths), no scanned neighbour is lower, and every flat scanned neighbour ends
up discovered. -/
lemma bfs_scan_inr_full (em : ℤ → ℤ → ℚ) (e : ℚ) :
    ∀ (ns : List Pos) (fv : Finset Pos) (acc : List (Pos × List Pos))
      (path : List Pos) (fv2 : Finset Pos) (items : List (Pos × List Pos)),
      bfs_scan em e ns fv acc path = .inr (fv2, items) →
      (∀ x ∈ fv, em x.2 x.1 = e) →
      ∃ new : List Pos,
        items = acc ++ new.map (fun n => (n, path ++ [n])) ∧
        fv2 = fv ∪ new.toFinset ∧
        (∀ n ∈ new, n ∈ ns ∧ em n.2 n.1 = e ∧ n ∉ fv) ∧
        (∀ n ∈ ns, ¬ em n.2 n.1 < e) ∧
        (∀ n ∈ ns, em n.2 n.1 = e → n ∈ fv2) := by
  intro ns
  induction ns with
  | nil =>
    intro fv acc path fv2 items h hfv
    rw [bfs_scan_nil] at h
    obtain h' : (fv, acc) = (fv2, items) := by injection h
    obtain ⟨rfl, rfl⟩ : fv = fv2 ∧ acc = items :=
      ⟨congrArg Prod.fst h', congrArg Prod.snd h'⟩
    exact ⟨[], by simp, by simp, by simp, by simp, by simp⟩
  | cons n ns ih =>
    intro fv acc path fv2 items h hfv
    rw [bfs_scan_cons] at h
    by_cases h1 : n ∈ fv
    · rw [if_pos h1] at h
      obtain ⟨new, hi, hf, hn, hl, hflat⟩ := ih fv acc path fv2 items h hfv
      refine ⟨new, hi, hf, fun m hm => ⟨by simp [(hn m hm).1], (hn m hm).2.1, (hn m hm).2.2⟩,
        ?_, ?_⟩
      · intro m hm
        rcases List.mem_cons.mp hm with rfl | hm'
        · rw [hfv m h1]; exact lt_irrefl e
        · exact hl m hm'
      · intro m hm hme
        rcases List.mem_cons.mp hm with rfl | hm'
        · rw [hf]; exact Finset.mem_union_left _ h1
        · exact hflat m hm' hme
    · rw [if_neg h1] at h
      by_cases h2 : em n.2 n.1 < e
      · rw [if_pos h2] at h
        exact absurd h (by simp)
      · rw [if_neg h2] at h
        by_cases h3 : em n.2 n.1 = e
        · rw [if_pos h3] at h
          have hfv' : ∀ x ∈ insert n fv, em x.2 x.1 = e := by
            intro x hx
            rcases Finset.mem_insert.mp hx with rfl | hx'
            · exact h3
            · exact hfv x hx'
          obtain ⟨new, hi, hf, hn, hl, hflat⟩ :=
            ih (insert n fv) (acc ++ [(n, path ++ [n])]) path fv2 items h hfv'
          refine ⟨n :: new, ?_, ?_, ?_, ?_, ?_⟩
          · rw [hi, List.map_cons]
            simp
          · rw [hf]
            ext x
            simp only [Finset.mem_union, Finset.mem_insert, List.mem_toFinset,
              List.mem_cons]
            tauto
          · intro m hm
            rcases List.mem_cons.mp hm with rfl | hm'
            · exact ⟨by simp, h3, h1⟩
            · obtain ⟨hm1, hm2, hm3⟩ := hn m hm'
              exact ⟨by simp [hm1], hm2, fun hc => hm3 (Finset.mem_insert_of_mem hc)⟩
          · intro m hm
            rcases List.mem_cons.mp hm with rfl | hm'
            · exact h2
            · exact hl m hm'
          · intro m hm hme
            rcases List.mem_cons.mp hm with rfl | hm'
            · rw [hf]
              exact Finset.mem_union_left _ (Finset.mem_insert_self m fv)
            · exact hflat m hm' hme
        · rw [if_neg h3] at h
          obtain ⟨new, hi, hf, hn, hl, hflat⟩ := ih fv acc path fv2 items h hfv
          refine ⟨new, hi, hf,
            fun m hm => ⟨by simp [(hn m hm).1], (hn m hm).2.1, (hn m hm).2.2⟩, ?_, ?_⟩
          · intro m hm
            rcases List.mem_cons.mp hm with rfl | hm'
            · exact h2
            · exact hl m hm'
          · intro m hm hme
            rcases List.mem_cons.mp hm with rfl | hm'
            · exact absurd hme h3
            · exact hflat m hm' hme

/-- The cells currently on the BFS queue. -/
def queue_cells (queue : List (Pos × List Pos)) : List Pos := queue.map Prod.fst

/-- The BFS loop invariant: all discovered cells are flat and in bounds; every
queue entry carries a duplicate-free flat chain from the source, is not
closer to the source than its recorded level, and sits in the discovered set;
the queue is a level-`L` prefix followed by a level-`L+1` suffix; the
discovered set lies between `flat_reach L` and `flat_reach (L+1)`; and every
discovered cell no longer on the queue has been fully scanned (it has no
lower neighbour, and its flat neighbours are all discovered). -/
def bfs_inv (em : ℤ → ℤ → ℚ) (W H : ℤ) (e : ℚ) (v : Pos) (L : ℕ)
    (queue : List (Pos × List Pos)) (fv : Finset Pos) : Prop :=
  (∀ x ∈ fv, em x.2 x.1 = e) ∧
  (∀ x ∈ fv, in_bounds W H x) ∧
  (∀ x ∈ queue, x.1 ∈ fv ∧ flat_chain em W H e v x.2 x.1 ∧ (x.2 = [] → x.1 = v) ∧
    x.2.Nodup ∧ (∀ y ∈ x.2, y ∈ fv) ∧
    (x.2 ≠ [] → x.1 ∉ flat_reach em W H e v (x.2.length - 1))) ∧
  (∃ q1 q2, queue = q1 ++ q2 ∧ (∀ x ∈ q1, x.2.length = L) ∧
    (∀ x ∈ q2, x.2.length = L + 1)) ∧
  (flat_reach em W H e v L ⊆ fv) ∧
  (∀ x ∈ fv, x ∈ flat_reach em W H e v (L + 1)) ∧
  (∀ c ∈ fv, c ∉ queue_cells queue →
    ¬ low_adj em W H e c ∧ ∀ n ∈ get_neighbors W H c, em n.2 n.1 = e → n ∈ fv)

/-- While the invariant holds with level `L`, no flat cell strictly closer to
the source than `L` has a lower neighbour. -/
lemma bfs_inv_minimal (em : ℤ → ℤ → ℚ) (W H : ℤ) (e : ℚ) (v : Pos) (L : ℕ)
    (queue : List (Pos × List Pos)) (fv : Finset Pos)
    (hinv : bfs_inv em W H e v L queue fv) :
    ∀ j < L, ¬ hasD em W H e v j := by
  obtain ⟨hflat, hbnd, hent, ⟨q1, q2, heq, hq1, hq2⟩, hreach, hfv_reach, hproc⟩ := hinv
  intro j hj hD
  obtain ⟨c', hc', hla⟩ := hD
  have hc'L : c' ∈ flat_reach em W H e v L :=
    flat_reach_mono em W H e v (le_of_lt hj) hc'
  have hc'fv : c' ∈ fv := hreach hc'L
  have hnotq : c' ∉ queue_cells queue := by
    intro hcq
    obtain ⟨x, hx, hx1⟩ := List.mem_map.mp hcq
    have hlen : x.2.length = L ∨ x.2.length = L + 1 := by
      rw [heq] at hx
      rcases List.mem_append.mp hx with h | h
      · exact Or.inl (hq1 x h)
      · exact Or.inr (hq2 x h)
    have hxne : x.2 ≠ [] := by
      intro h0
      rw [h0] at hlen
      simp at hlen
      omega
    have h7 := (hent x hx).2.2.2.2.2 hxne
    apply h7
    rw [hx1]
    refine flat_reach_mono em W H e v ?_ hc'
    omega
  exact (hproc c' hc'fv hnotq).1 hla

/-- The invariant can always be aligned so that the queue head's recorded
level is exactly the invariant level. -/
lemma bfs_inv_align (em : ℤ → ℤ → ℚ) (W H : ℤ) (e : ℚ) (v : Pos) (L : ℕ)
    (c : Pos) (pl : List Pos) (rest : List (Pos × List Pos)) (fv : Finset Pos)
    (hinv : bfs_inv em W H e v L ((c, pl) :: rest) fv) :
    ∃ L', bfs_inv em W H e v L' ((c, pl) :: rest) fv ∧ pl.length = L' ∧
      ∃ q1t q2, rest = q1t ++ q2 ∧ (∀ x ∈ q1t, x.2.length = L') ∧
        (∀ x ∈ q2, x.2.length = L' + 1) := by
  obtain ⟨hflat, hbnd, hent, ⟨q1, q2, heq, hq1, hq2⟩, hreach, hfv_reach, hproc⟩ := hinv
  cases q1 with
  | cons hd q1t =>
    rw [List.cons_append] at heq
    have hhd : hd = (c, pl) := by
      injection heq with h1 h2
      exact h1.symm
    have hrest : rest = q1t ++ q2 := by
      injection heq
    subst hhd
    refine ⟨L, ⟨hflat, hbnd, hent, ⟨(c, pl) :: q1t, q2, by rw [List.cons_append, hrest],
      hq1, hq2⟩, hreach, hfv_reach, hproc⟩, ?_, q1t, q2, hrest,
      fun x hx => hq1 x (by simp [hx]), hq2⟩
    exact hq1 (c, pl) (by simp)
  | nil =>
    rw [List.nil_append] at heq
    have hall : ∀ x ∈ (c, pl) :: rest, x.2.length = L + 1 := by
      intro x hx
      exact hq2 x (heq ▸ hx)
    have hreach' : flat_reach em W H e v (L + 1) ⊆ fv := by
      intro y hy
      rcases Finset.mem_union.mp hy with hy' | hy'
      · exact hreach hy'
      · obtain ⟨c'', hc'', hy''⟩ := Finset.mem_biUnion.mp hy'
        rw [List.mem_toFinset, List.mem_filter] at hy''
        obtain ⟨hnb, hfl⟩ := hy''
        have hfl' : em y.2 y.1 = e := by simpa using hfl
        have hc''fv : c'' ∈ fv := hreach hc''
        have hc''notq : c'' ∉ queue_cells ((c, pl) :: rest) := by
          intro hq
          obtain ⟨x, hx, hx1⟩ := List.mem_map.mp hq
          have hlen : x.2.length = L + 1 := hall x hx
          have hxne : x.2 ≠ [] := by
            intro h0
            rw [h0] at hlen
            simp at hlen
          have h7 := (hent x hx).2.2.2.2.2 hxne
          apply h7
          rw [hx1, hlen]
          simpa using hc''
        exact (hproc c'' hc''fv hc''notq).2 y hnb hfl'
    refine ⟨L + 1, ⟨hflat, hbnd, hent, ⟨(c, pl) :: rest, [], by simp, hall, by simp⟩,
      hreach', fun x hx => flat_reach_mono em W H e v (Nat.le_succ _) (hfv_reach x hx),
      hproc⟩, hall (c, pl) (by simp), rest, [], by simp,
      fun x hx => hall x (by simp [hx]), by simp⟩

/-- Popping the aligned queue head and scanning its neighbours preserves the
BFS invariant. -/
lemma bfs_inv_step (em : ℤ → ℤ → ℚ) (W H : ℤ) (e : ℚ) (v : Pos) (L : ℕ)
    (c : Pos) (pl : List Pos) (rest : List (Pos × List Pos)) (fv : Finset Pos)
    (fv2 : Finset Pos) (items : List (Pos × List Pos))
    (q1t q2 : List (Pos × List Pos))
    (hinv : bfs_inv em W H e v L ((c, pl) :: rest) fv)
    (hplen : pl.length = L)
    (hrest : rest = q1t ++ q2) (hq1t : ∀ x ∈ q1t, x.2.length = L)
    (hq2 : ∀ x ∈ q2, x.2.length = L + 1)
    (hscan : bfs_scan em e (get_neighbors W H c) fv [] pl = .inr (fv2, items)) :
    bfs_inv em W H e v L (rest ++ items) fv2 := by
  obtain ⟨hflat, hbnd, hent, _, hreach, hfv_reach, hproc⟩ := hinv
  obtain ⟨hcfv, hchain, hcnil, hplnd, hplfv, h7⟩ := hent (c, pl) (by simp)
  obtain ⟨new, hitems, hfv2, hnew, hnolow, hallflat⟩ :=
    bfs_scan_inr_full em e (get_neighbors W H c) fv [] pl fv2 items hscan hflat
  rw [List.nil_append] at hitems
  have hcreach : c ∈ flat_reach em W H e v L := by
    rw [← hplen]
    exact flat_chain_reach em W H e hchain
  have hnew_sub : ∀ n ∈ new, n ∈ fv2 := by
    intro n hn
    rw [hfv2]
    exact Finset.mem_union_right _ (List.mem_toFinset.mpr hn)
  have hfv_sub : fv ⊆ fv2 := by
    rw [hfv2]
    exact Finset.subset_union_left
  refine ⟨?_, ?_, ?_, ?_, ?_, ?_, ?_⟩
  · -- all discovered cells flat
    intro x hx
    rw [hfv2] at hx
    rcases Finset.mem_union.mp hx with hx' | hx'
    · exact hflat x hx'
    · exact (hnew x (List.mem_toFinset.mp hx')).2.1
  · -- all discovered cells in bounds
    intro x hx
    rw [hfv2] at hx
    rcases Finset.mem_union.mp hx with hx' | hx'
    · exact hbnd x hx'
    · exact get_neighbors_in_bounds W H c x (hnew x (List.mem_toFinset.mp hx')).1
  · -- entry invariant
    intro x hx
    rcases List.mem_append.mp hx with hx' | hx'
    · obtain ⟨e1, e2, e3, e4, e5, e6⟩ := hent x (by simp [hx'])
      exact ⟨hfv_sub e1, e2, e3, e4, fun y hy => hfv_sub (e5 y hy), e6⟩
    · rw [hitems] at hx'
      obtain ⟨n, hn, hxn⟩ := List.mem_map.mp hx'
      obtain ⟨hn1, hn2, hn3⟩ := hnew n hn
      subst hxn
      refine ⟨hnew_sub n hn, flat_chain.snoc v pl c n hchain hn1 hn2, by simp, ?_, ?_, ?_⟩
      · rw [List.nodup_append]
        refine ⟨hplnd, List.nodup_singleton n, ?_⟩
        intro y hy hyn
        obtain rfl : y = n := by simpa using hyn
        exact hn3 (hplfv y hy)
      · intro y hy
        rcases List.mem_append.mp hy with hy' | hy'
        · exact hfv_sub (hplfv y hy')
        · obtain rfl : y = n := by simpa using hy'
          exact hnew_sub y hn
      · intro _
        show n ∉ flat_reach em W H e v ((pl ++ [n]).length - 1)
        rw [List.length_append, List.length_singleton]
        simp only [Nat.add_sub_cancel]
        rw [hplen]
        intro hcon
        exact hn3 (hreach hcon)
  · -- level split
    refine ⟨q1t, q2 ++ items, by rw [hrest, List.append_assoc], hq1t, ?_⟩
    intro x hx
    rcases List.mem_append.mp hx with hx' | hx'
    · exact hq2 x hx'
    · rw [hitems] at hx'
      obtain ⟨n, hn, hxn⟩ := List.mem_map.mp hx'
      subst hxn
      show (pl ++ [n]).length = L + 1
      rw [List.length_append, List.length_singleton, hplen]
  · -- reach L ⊆ fv2
    exact hreach.trans hfv_sub
  · -- fv2 ⊆ reach (L+1)
    intro x hx
    rw [hfv2] at hx
    rcases Finset.mem_union.mp hx with hx' | hx'
    · exact hfv_reach x hx'
    · obtain ⟨hn1, hn2, _⟩ := hnew x (List.mem_toFinset.mp hx')
      exact mem_flat_reach_succ em W H e v c x L hcreach hn1 hn2
  · -- processed cells are fully scanned
    intro c' hc' hc'q
    by_cases hcc : c' = c
    · subst hcc
      constructor
      · rintro ⟨n, hn, hlow⟩
        exact hnolow n hn hlow
      · intro n hn hne
        exact hallflat n hn hne
    · have hc'fv : c' ∈ fv := by
        rw [hfv2] at hc'
        rcases Finset.mem_union.mp hc' with hx' | hx'
        · exact hx'
        · exfalso
          apply hc'q
          unfold queue_cells
          rw [List.map_append]
          refine List.mem_append.mpr (Or.inr ?_)
          rw [hitems, List.map_map]
          rw [List.mem_map]
          exact ⟨c', List.mem_toFinset.mp hx', rfl⟩
      have hc'old : c' ∉ queue_cells ((c, pl) :: rest) := by
        intro hq
        unfold queue_cells at hq
        rw [List.map_cons] at hq
        rcases List.mem_cons.mp hq with h' | h'
        · exact hcc h'
        · exact hc'q (by
            unfold queue_cells
            rw [List.map_append]
            exact List.mem_append.mpr (Or.inl h'))
      obtain ⟨hp1, hp2⟩ := hproc c' hc'fv hc'old
      exact ⟨hp1, fun n hn hne => hfv_sub (hp2 n hn hne)⟩

/-- Soundness of the plateau BFS: a returned cell is either strictly lower
than the search elevation, or a flat first step whose plateau distance is
strictly smaller than the source's. -/
lemma bfs_flow_sound (em : ℤ → ℤ → ℚ) (W H : ℤ) (e : ℚ) (v : Pos)
    (hv : em v.2 v.1 = e) :
    ∀ (fuel L : ℕ) (queue : List (Pos × List Pos)) (fv : Finset Pos) (q : Pos),
      bfs_inv em W H e v L queue fv →
      bfs_flow em W H e fuel queue fv = some (some q) →
      (em q.2 q.1 < e ∧ in_bounds W H q) ∨
      (em q.2 q.1 = e ∧ in_bounds W H q ∧ Dtot em W H e q < Dtot em W H e v) := by
  intro fuel
  induction fuel with
  | zero =>
    intro L queue fv q _ h
    exact absurd h (by simp [bfs_flow])
  | succ fuel ih =>
    intro L queue fv q hinv h
    cases queue with
    | nil => simp [bfs_flow] at h
    | cons hd rest =>
      obtain ⟨c, pl⟩ := hd
      obtain ⟨L', hinv', hplen, q1t, q2, hrest, hq1t, hq2⟩ :=
        bfs_inv_align em W H e v L c pl rest fv hinv
      have hinv'' := hinv'
      obtain ⟨hflat, hbnd, hent, hsplit, hreach, hfv_reach, hproc⟩ := hinv'
      obtain ⟨hcfv, hchain, hcnil, hplnd, hplfv, h7⟩ := hent (c, pl) (by simp)
      cases hscan : bfs_scan em e (get_neighbors W H c) fv [] pl with
      | inl q0 =>
        have hq0 : q0 = q := by
          rw [bfs_flow, hscan] at h
          simpa using h
        subst hq0
        obtain ⟨n, hn, hlow, hform⟩ :=
          bfs_scan_inl em e (get_neighbors W H c) fv [] pl q0 hscan
        cases pl with
        | nil =>
          have hform' := hform.symm
          subst hform'
          exact Or.inl ⟨hlow, get_neighbors_in_bounds W H c n hn⟩
        | cons h0 t0 =>
          have hform' := hform.symm
          subst hform'
          show (em h0.2 h0.1 < e ∧ in_bounds W H h0) ∨
            (em h0.2 h0.1 = e ∧ in_bounds W H h0 ∧
              Dtot em W H e h0 < Dtot em W H e v)
          obtain ⟨hh0n, hh0f, hh0ch⟩ := flat_chain_cons_inv em W H e hchain h0 t0 rfl
          have hla : low_adj em W H e c := ⟨n, hn, hlow⟩
          have hDv : hasD em W H e v L' := by
            refine ⟨c, ?_, hla⟩
            rw [← hplen]
            exact flat_chain_reach em W H e hchain
          have hmin : ∀ j < L', ¬ hasD em W H e v j :=
            bfs_inv_minimal em W H e v L' ((c, h0 :: t0) :: rest) fv hinv''
          have hLb : L' ≤ DBound W H := by
            have h1 : (h0 :: t0).toFinset.card = (h0 :: t0).length :=
              List.toFinset_card_of_nodup hplnd
            have h2 : (h0 :: t0).toFinset ⊆ bounds_finset W H := by
              intro x hx
              exact (mem_bounds_finset W H x).mpr
                (hbnd x (hplfv x (List.mem_toFinset.mp hx)))
            have h3 := Finset.card_le_card h2
            unfold DBound
            omega
          have hDvEq : Dtot em W H e v = L' := Dtot_eq em W H e v hDv hLb hmin
          have hlen0 : t0.length = L' - 1 := by
            simp only [List.length_cons] at hplen
            omega
          have hDq : hasD em W H e h0 (L' - 1) := by
            refine ⟨c, ?_, hla⟩
            rw [← hlen0]
            exact flat_chain_reach em W H e hh0ch
          have hDqLe : Dtot em W H e h0 ≤ L' - 1 :=
            Dtot_le em W H e h0 hDq (by omega)
          have hL1 : 1 ≤ L' := by
            simp only [List.length_cons] at hplen
            omega
          refine Or.inr ⟨hh0f, get_neighbors_in_bounds W H v h0 hh0n, ?_⟩
          rw [hDvEq]
          omega
      | inr pr =>
        obtain ⟨fv2, items⟩ := pr
        have h2 : bfs_flow em W H e fuel (rest ++ items) fv2 = some (some q) := by
          rw [bfs_flow, hscan] at h
          exact h
        exact ih L' (rest ++ items) fv2 q
          (bfs_inv_step em W H e v L' c pl rest fv fv2 items q1t q2 hinv'' hplen
            hrest hq1t hq2 hscan) h2

/-! ### Totality of the trace loop -/

/-- One scan step can only set the best candidate to an unvisited strictly
lower neighbour (or keep the previous candidate). -/
lemma flow_scan_step_best (em : ℤ → ℤ → ℚ) (p : Pos) (visited : List Pos)
    (st : FlowScan) (n : Pos) (q : Pos)
    (h : (flow_scan_step em p visited st n).best_pos = some q) :
    st.best_pos = some q ∨ (q = n ∧ n ∉ visited ∧ em n.2 n.1 < em p.2 p.1) := by
  by_cases h1 : n ∈ visited
  · have hs : flow_scan_step em p visited st n = st := by
      simp [flow_scan_step, h1]
    rw [hs] at h
    exact Or.inl h
  · by_cases h2 : 0 < em p.2 p.1 - em n.2 n.1
    · by_cases h3 : st.best_drop < em p.2 p.1 - em n.2 n.1 ∨
        (em p.2 p.1 - em n.2 n.1 = st.best_drop ∧ |n.1 - p.1| + |n.2 - p.2| = 1)
      · have hs : flow_scan_step em p visited st n =
            FlowScan.mk (em p.2 p.1 - em n.2 n.1) (some n) st.flats := by
          simp [flow_scan_step, h1, h2, h3]
        rw [hs] at h
        have hq : n = q := by simpa using h
        exact Or.inr ⟨hq.symm, h1, by linarith⟩
      · have hs : flow_scan_step em p visited st n = st := by
          simp [flow_scan_step, h1, h2, h3]
        rw [hs] at h
        exact Or.inl h
    · by_cases h4 : em p.2 p.1 - em n.2 n.1 = 0
      · have hs : flow_scan_step em p visited st n =
            FlowScan.mk st.best_drop st.best_pos (st.flats ++ [n]) := by
          simp [flow_scan_step, h1, h2, h4]
        rw [hs] at h
        exact Or.inl h
      · have hs : flow_scan_step em p visited st n = st := by
          simp [flow_scan_step, h1, h2, h4]
        rw [hs] at h
        exact Or.inl h

/-- One scan step can only add an unvisited equal-elevation neighbour to the
flat list. -/
lemma flow_scan_step_flats (em : ℤ → ℤ → ℚ) (p : Pos) (visited : List Pos)
    (st : FlowScan) (n : Pos) (m : Pos)
    (h : m ∈ (flow_scan_step em p visited st n).flats) :
    m ∈ st.flats ∨ (m = n ∧ n ∉ visited ∧ em n.2 n.1 = em p.2 p.1) := by
  by_cases h1 : n ∈ visited
  · have hs : flow_scan_step em p visited st n = st := by
      simp [flow_scan_step, h1]
    rw [hs] at h
    exact Or.inl h
  · by_cases h2 : 0 < em p.2 p.1 - em n.2 n.1
    · by_cases h3 : st.best_drop < em p.2 p.1 - em n.2 n.1 ∨
        (em p.2 p.1 - em n.2 n.1 = st.best_drop ∧ |n.1 - p.1| + |n.2 - p.2| = 1)
      · have hs : flow_scan_step em p visited st n =
            FlowScan.mk (em p.2 p.1 - em n.2 n.1) (some n) st.flats := by
          simp [flow_scan_step, h1, h2, h3]
        rw [hs] at h
        exact Or.inl h
      · have hs : flow_scan_step em p visited st n = st := by
          simp [flow_scan_step, h1, h2, h3]
        rw [hs] at h
        exact Or.inl h
    · by_cases h4 : em p.2 p.1 - em n.2 n.1 = 0
      · have hs : flow_scan_step em p visited st n =
            FlowScan.mk st.best_drop st.best_pos (st.flats ++ [n]) := by
          simp [flow_scan_step, h1, h2, h4]
        rw [hs] at h
        rcases List.mem_append.mp h with h' | h'
        · exact Or.inl h'
        · obtain rfl : m = n := by simpa using h'
          exact Or.inr ⟨rfl, h1, by linarith⟩
      · have hs : flow_scan_step em p visited st n = st := by
          simp [flow_scan_step, h1, h2, h4]
        rw [hs] at h
        exact Or.inl h

/-- Folded version of `flow_scan_step_best`. -/
lemma flow_scan_foldl_best (em : ℤ → ℤ → ℚ) (p : Pos) (visited : List Pos) :
    ∀ (ns : List Pos) (st : FlowScan) (q : Pos),
      (ns.foldl (flow_scan_step em p visited) st).best_pos = some q →
      st.best_pos = some q ∨ (q ∈ ns ∧ q ∉ visited ∧ em q.2 q.1 < em p.2 p.1) := by
  intro ns
  induction ns with
  | nil => intro st q h; exact Or.inl h
  | cons n ns ih =>
    intro st q h
    rw [List.foldl_cons] at h
    rcases ih (flow_scan_step em p visited st n) q h with h' | h'
    · rcases flow_scan_step_best em p visited st n q h' with h'' | ⟨rfl, hnv, hlt⟩
      · exact Or.inl h''
      · exact Or.inr ⟨by simp, hnv, hlt⟩
    · exact Or.inr ⟨by simp [h'.1], h'.2.1, h'.2.2⟩

/-- Folded version of `flow_scan_step_flats`. -/
lemma flow_scan_foldl_flats (em : ℤ → ℤ → ℚ) (p : Pos) (visited : List Pos) :
    ∀ (ns : List Pos) (st : FlowScan) (m : Pos),
      m ∈ (ns.foldl (flow_scan_step em p visited) st).flats →
      m ∈ st.flats ∨ (m ∈ ns ∧ m ∉ visited ∧ em m.2 m.1 = em p.2 p.1) := by
  intro ns
  induction ns with
  | nil => intro st m h; exact Or.inl h
  | cons n ns ih =>
    intro st m h
    rw [List.foldl_cons] at h
    rcases ih (flow_scan_step em p visited st n) m h with h' | h'
    · rcases flow_scan_step_flats em p visited st n m h' with h'' | ⟨rfl, hnv, hf⟩
      · exact Or.inl h''
      · exact Or.inr ⟨by simp, hnv, hf⟩
    · exact Or.inr ⟨by simp [h'.1], h'.2.1, h'.2.2⟩

/-- A best candidate produced by the first scan is an unvisited, strictly
lower neighbour of the current cell. -/
lemma flow_scan_best (em : ℤ → ℤ → ℚ) (W H : ℤ) (p : Pos) (visited : List Pos)
    (q : Pos) (h : (flow_scan em W H p visited).best_pos = some q) :
    q ∈ get_neighbors W H p ∧ q ∉ visited ∧ em q.2 q.1 < em p.2 p.1 := by
  unfold flow_scan at h
  rcases flow_scan_foldl_best em p visited (get_neighbors W H p)
      (FlowScan.mk 0 none []) q h with h' | h'
  · exact absurd h' (by simp)
  · exact h'

/-- Every collected flat cell is an unvisited equal-elevation neighbour of the
current cell. -/
lemma flow_scan_flats_mem (em : ℤ → ℤ → ℚ) (W H : ℤ) (p : Pos) (visited : List Pos)
    (m : Pos) (h : m ∈ (flow_scan em W H p visited).flats) :
    m ∈ get_neighbors W H p ∧ m ∉ visited ∧ em m.2 m.1 = em p.2 p.1 := by
  unfold flow_scan at h
  rcases flow_scan_foldl_flats em p visited (get_neighbors W H p)
      (FlowScan.mk 0 none []) m h with h' | h'
  · exact absurd h' (by simp)
  · exact h'

/-- The BFS invariant holds at the start of the plateau search. -/
lemma bfs_inv_init (em : ℤ → ℤ → ℚ) (W H : ℤ) (e : ℚ) (v : Pos)
    (hve : em v.2 v.1 = e) (hvb : in_bounds W H v) :
    bfs_inv em W H e v 0 [(v, [])] {v} := by
  refine ⟨?_, ?_, ?_, ?_, ?_, ?_, ?_⟩
  · intro x hx
    obtain rfl : x = v := Finset.mem_singleton.mp hx
    exact hve
  · intro x hx
    obtain rfl : x = v := Finset.mem_singleton.mp hx
    exact hvb
  · intro x hx
    obtain rfl : x = (v, []) := by simpa using hx
    exact ⟨Finset.mem_singleton_self v, flat_chain.nil v, fun _ => rfl, List.nodup_nil,
      by simp, by simp⟩
  · refine ⟨[(v, [])], [], by simp, ?_, by simp⟩
    intro x hx
    obtain rfl : x = (v, []) := by simpa using hx
    rfl
  · intro x hx
    exact hx
  · intro x hx
    obtain rfl : x = v := Finset.mem_singleton.mp hx
    exact self_mem_flat_reach em W H e x 1
  · intro c hc hcq
    exfalso
    obtain rfl : c = v := Finset.mem_singleton.mp hc
    exact hcq (by simp [queue_cells])

/-- `find_flow_direction` always answers once the BFS fuel exceeds the number
of grid cells. -/
lemma ffd_total (em : ℤ → ℤ → ℚ) (W H : ℤ) (choice : List Pos → Pos)
    (bf : ℕ) (p : Pos) (visited : List Pos)
    (hp : in_bounds W H p) (hbf : (bounds_finset W H).card < bf) :
    (find_flow_direction em W H choice bf p visited).isSome := by
  have htot : (bfs_flow em W H (em p.2 p.1) bf [(p, [])] {p}).isSome := by
    apply bfs_flow_total em W H (em p.2 p.1) bf [(p, [])] {p}
    · intro x hx
      obtain rfl : x = p := Finset.mem_singleton.mp hx
      exact hp
    · simp only [List.length_singleton, Finset.card_singleton]
      linarith
  unfold find_flow_direction
  cases hbp : (flow_scan em W H p visited).best_pos with
  | some q => simp [hbp]
  | none =>
    simp only [hbp]
    by_cases hfl : (flow_scan em W H p visited).flats = []
    · simp [hfl]
    · rw [if_neg hfl]
      cases hb : bfs_flow em W H (em p.2 p.1) bf [(p, [])] {p} with
      | none =>
        rw [hb] at htot
        simp at htot
      | some o =>
        cases o with
        | some q => simp [hb]
        | none =>
          simp only [hb]
          split
          · simp
          · simp

/-- Any cell returned by `find_flow_direction` is in bounds and is strictly
lower than the current cell, or flat and not yet on the path, or flat with a
strictly smaller plateau distance. -/
lemma ffd_some_cases (em : ℤ → ℤ → ℚ) (W H : ℤ) (choice : List Pos → Pos)
    (bf : ℕ) (p : Pos) (visited : List Pos) (q : Pos)
    (hchoice : ∀ l : List Pos, l ≠ [] → choice l ∈ l)
    (hp : in_bounds W H p)
    (h : find_flow_direction em W H choice bf p visited = some (some q)) :
    in_bounds W H q ∧
      (em q.2 q.1 < em p.2 p.1 ∨
        (em q.2 q.1 = em p.2 p.1 ∧
          (q ∉ visited ∨
            Dtot em W H (em p.2 p.1) q < Dtot em W H (em p.2 p.1) p))) := by
  have hflats : ∀ m ∈ (flow_scan em W H p visited).flats,
      in_bounds W H m ∧
        (em m.2 m.1 < em p.2 p.1 ∨
          (em m.2 m.1 = em p.2 p.1 ∧
            (m ∉ visited ∨
              Dtot em W H (em p.2 p.1) m < Dtot em W H (em p.2 p.1) p))) := by
    intro m hm
    obtain ⟨hn, hnv, hf⟩ := flow_scan_flats_mem em W H p visited m hm
    exact ⟨get_neighbors_in_bounds W H p m hn, Or.inr ⟨hf, Or.inl hnv⟩⟩
  have h' := h
  unfold find_flow_direction at h'
  simp only at h'
  split at h'
  · rename_i q0 hbp
    obtain rfl : q0 = q := by simpa using h'
    obtain ⟨hn, hnv, hlt⟩ := flow_scan_best em W H p visited q0 hbp
    exact ⟨get_neighbors_in_bounds W H p q0 hn, Or.inl hlt⟩
  · rename_i hbp
    split at h'
    · exact absurd h' (by simp)
    · rename_i hfl
      split at h'
      · exact absurd h' (by simp)
      · rename_i q1 hb
        obtain rfl : q1 = q := by simpa using h'
        have hinit := bfs_inv_init em W H (em p.2 p.1) p rfl hp
        rcases bfs_flow_sound em W H (em p.2 p.1) p rfl bf 0 [(p, [])] {p} q1
            hinit hb with ⟨hlt, hbnd⟩ | ⟨heq, hbnd, hD⟩
        · exact ⟨hbnd, Or.inl hlt⟩
        · exact ⟨hbnd, Or.inr ⟨heq, Or.inr hD⟩⟩
      · by_cases ho : (flow_scan em W H p visited).flats.filter
            (fun n => decide (|n.1 - p.1| + |n.2 - p.2| = 1)) = []
        · rw [if_pos ho] at h'
          obtain hq : choice (flow_scan em W H p visited).flats = q := by
            simpa using h'
          rw [← hq]
          exact hflats _ (hchoice _ hfl)
        · rw [if_neg ho] at h'
          obtain hq : choice ((flow_scan em W H p visited).flats.filter
              (fun n => decide (|n.1 - p.1| + |n.2 - p.2| = 1))) = q := by
            simpa using h'
          rw [← hq]
          have hmem := hchoice _ ho
          exact hflats _ (List.mem_filter.mp hmem).1

/-- The primary trace measure component: the number of in-bounds cells
strictly lower than the current cell. -/
def rank (em : ℤ → ℤ → ℚ) (W H : ℤ) (v : Pos) : ℕ :=
  ((bounds_finset W H).filter (fun c => em c.2 c.1 < em v.2 v.1)).card

/-- The secondary trace measure component: the number of in-bounds cells not
yet on the path. -/
def unvis (W H : ℤ) (path : List Pos) : ℕ :=
  ((bounds_finset W H).filter (fun c => c ∉ path)).card

/-- Base of the lexicographic encoding of the trace measure. -/
def measureK (W H : ℤ) : ℕ := (bounds_finset W H).card + 2

/-- The combined termination measure of the trace loop: elevation rank, then
unvisited-cell count, then plateau distance, lexicographically. -/
def trace_measure (em : ℤ → ℤ → ℚ) (W H : ℤ) (cur : Pos) (path : List Pos) : ℕ :=
  rank em W H cur * (measureK W H * measureK W H) + unvis W H path * measureK W H +
    Dtot em W H (em cur.2 cur.1) cur

lemma rank_le (em : ℤ → ℤ → ℚ) (W H : ℤ) (v : Pos) :
    rank em W H v ≤ (bounds_finset W H).card := Finset.card_filter_le _ _

lemma unvis_le (W H : ℤ) (path : List Pos) :
    unvis W H path ≤ (bounds_finset W H).card := Finset.card_filter_le _ _

/-- A move to a strictly lower in-bounds cell strictly decreases the rank. -/
lemma rank_lt_of_lower (em : ℤ → ℤ → ℚ) (W H : ℤ) (v q : Pos)
    (hq : in_bounds W H q) (hlt : em q.2 q.1 < em v.2 v.1) :
    rank em W H q < rank em W H v := by
  apply Finset.card_lt_card
  have hsub : (bounds_finset W H).filter (fun c => em c.2 c.1 < em q.2 q.1) ⊆
      (bounds_finset W H).filter (fun c => em c.2 c.1 < em v.2 v.1) := by
    intro c hc
    rw [Finset.mem_filter] at hc ⊢
    exact ⟨hc.1, lt_trans hc.2 hlt⟩
  refine (Finset.ssubset_iff_of_subset hsub).mpr ⟨q, ?_, ?_⟩
  · rw [Finset.mem_filter]
    exact ⟨(mem_bounds_finset W H q).mpr hq, hlt⟩
  · rw [Finset.mem_filter]
    push_neg
    intro _
    exact le_refl (em q.2 q.1)

/-- A flat move leaves the rank unchanged. -/
lemma rank_eq_of_flat (em : ℤ → ℤ → ℚ) (W H : ℤ) (v q : Pos)
    (heq : em q.2 q.1 = em v.2 v.1) :
    rank em W H q = rank em W H v := by
  unfold rank
  congr 1
  apply Finset.filter_congr
  intro c _
  rw [heq]

/-- Growing the path never increases the unvisited count. -/
lemma unvis_le_of_subset (W H : ℤ) (p1 p2 : List Pos)
    (hsub : ∀ c ∈ p1, c ∈ p2) : unvis W H p2 ≤ unvis W H p1 := by
  apply Finset.card_le_card
  intro c hc
  rw [Finset.mem_filter] at hc ⊢
  exact ⟨hc.1, fun hmem => hc.2 (hsub c hmem)⟩

/-- Adding a fresh in-bounds cell to the path strictly decreases the
unvisited count. -/
lemma unvis_lt_of_new (W H : ℤ) (p1 p2 : List Pos) (q : Pos)
    (hsub : ∀ c ∈ p1, c ∈ p2) (hqb : in_bounds W H q)
    (hq1 : q ∉ p1) (hq2 : q ∈ p2) : unvis W H p2 < unvis W H p1 := by
  apply Finset.card_lt_card
  have hs : (bounds_finset W H).filter (fun c => c ∉ p2) ⊆
      (bounds_finset W H).filter (fun c => c ∉ p1) := by
    intro c hc
    rw [Finset.mem_filter] at hc ⊢
    exact ⟨hc.1, fun hmem => hc.2 (hsub c hmem)⟩
  refine (Finset.ssubset_iff_of_subset hs).mpr ⟨q, ?_, ?_⟩
  · rw [Finset.mem_filter]
    exact ⟨(mem_bounds_finset W H q).mpr hqb, hq1⟩
  · simp [Finset.mem_filter, hq2]

/-- Strict decrease of the three-component lexicographic encoding with base
`b + 2`, components bounded by `b`, `b` and `b + 1`. -/
lemma lex3_lt (b r r' u u' d d' : ℕ)
    (hu' : u' ≤ b) (hd' : d' ≤ b + 1)
    (h : r' < r ∨ (r' = r ∧ u' < u) ∨ (r' = r ∧ u' ≤ u ∧ d' < d)) :
    r' * ((b + 2) * (b + 2)) + u' * (b + 2) + d' <
      r * ((b + 2) * (b + 2)) + u * (b + 2) + d := by
  rcases h with h | ⟨rfl, h⟩ | ⟨rfl, h1, h2⟩
  · have h1 : r' + 1 ≤ r := h
    nlinarith
  · have h1 : u' + 1 ≤ u := h
    nlinarith
  · nlinarith

/-- One iteration of the trace loop strictly decreases the trace measure. -/
lemma trace_measure_decrease (em : ℤ → ℤ → ℚ) (W H : ℤ) (cur next : Pos)
    (path path2 : List Pos)
    (hnb : in_bounds W H next)
    (hsub : ∀ c ∈ path, c ∈ path2)
    (hnext2 : next ∈ path2)
    (hcase : em next.2 next.1 < em cur.2 cur.1 ∨
      (em next.2 next.1 = em cur.2 cur.1 ∧
        (next ∉ path ∨
          Dtot em W H (em cur.2 cur.1) next < Dtot em W H (em cur.2 cur.1) cur))) :
    trace_measure em W H next path2 < trace_measure em W H cur path := by
  unfold trace_measure measureK
  apply lex3_lt
  · exact unvis_le W H path2
  · have hD := Dtot_le_DBound em W H (em next.2 next.1) next
    unfold DBound at hD
    exact hD
  · rcases hcase with hlt | ⟨heq, hflat⟩
    · exact Or.inl (rank_lt_of_lower em W H cur next hnb hlt)
    · rcases hflat with hnv | hD
      · exact Or.inr (Or.inl ⟨rank_eq_of_flat em W H cur next heq,
          unvis_lt_of_new W H path path2 next hsub hnb hnv hnext2⟩)
      · refine Or.inr (Or.inr ⟨rank_eq_of_flat em W H cur next heq,
          unvis_le_of_subset W H path path2 hsub, ?_⟩)
        rw [heq]
        exact hD

/-- The trace measure is bounded by the grid size. -/
lemma trace_measure_lt (em : ℤ → ℤ → ℚ) (W H : ℤ) (cur : Pos) (path : List Pos) :
    trace_measure em W H cur path <
      ((bounds_finset W H).card + 1) *
        (((bounds_finset W H).card + 2) * ((bounds_finset W H).card + 2)) := by
  unfold trace_measure measureK
  have h1 := rank_le em W H cur
  have h2 := unvis_le W H path
  have h3 := Dtot_le_DBound em W H (em cur.2 cur.1) cur
  unfold DBound at h3
  nlinarith

/-- With fuel exceeding the trace measure (and BFS fuel exceeding the grid
size), the river-tracing loop always halts. -/
lemma trace_loop_total (em : ℤ → ℤ → ℚ) (W H : ℤ) (choice : List Pos → Pos)
    (bf : ℕ) (hchoice : ∀ l : List Pos, l ≠ [] → choice l ∈ l)
    (hbf : (bounds_finset W H).card < bf) :
    ∀ (fuel : ℕ) (cur : Pos) (le : ℚ) (path : List Pos),
      in_bounds W H cur →
      trace_measure em W H cur path < fuel →
      (trace_loop em W H choice bf fuel cur le path).isSome := by
  intro fuel
  induction fuel with
  | zero =>
    intro cur le path _ hm
    exact absurd hm (Nat.not_lt_zero _)
  | succ fuel ih =>
    intro cur le path hcur hm
    rw [trace_loop]
    cases hffd : find_flow_direction em W H choice bf cur path with
    | none =>
      have htot := ffd_total em W H choice bf cur path hcur hbf
      rw [hffd] at htot
      simp at htot
    | some o =>
      cases o with
      | none => simp [hffd]
      | some next =>
        simp only [hffd]
        obtain ⟨hnb, hcase⟩ :=
          ffd_some_cases em W H choice bf cur path next hchoice hcur hffd
        by_cases hwl : em next.2 next.1 < water_level
        · rw [if_pos hwl]
          simp
        · rw [if_neg hwl]
          apply ih next (em next.2 next.1)
            ((path ++ diag_intermediates em W H cur le next path) ++ [next]) hnb
          have hdec := trace_measure_decrease em W H cur next path
            ((path ++ diag_intermediates em W H cur le next path) ++ [next]) hnb
            (fun c hc => by simp [hc]) (by simp) hcase
          omega

/-! ## Claim C6 -/

/-- C6: generation terminates on every finite map.  The plateau BFS inside
`find_flow_direction` halts once its fuel exceeds the number of grid cells;
the river-tracing loop halts once its fuel exceeds the lexicographic
elevation / fresh-cell / plateau-distance bound `(W*H+1)*(W*H+2)^2`; and the
gap-filling loop of `apply_rivers_to_map` halts because river cells are only
ever added, never removed, and their number is bounded by `width * height`. -/
theorem C6_generation_terminates (em : ℤ → ℤ → ℚ) (W H : ℤ)
    (choice : List Pos → Pos) (bf fuel rfuel : ℕ) (start : Pos)
    (st : List Pos × (Pos → Option ℚ))
    (hchoice : ∀ l : List Pos, l ≠ [] → choice l ∈ l)
    (hstart : in_bounds W H start)
    (hbf : W.toNat * H.toNat < bf)
    (hfuel : (W.toNat * H.toNat + 1) *
      ((W.toNat * H.toNat + 2) * (W.toNat * H.toNat + 2)) ≤ fuel)
    (hnodup : st.1.Nodup) (hstb : ∀ p ∈ st.1, in_bounds W H p)
    (hrfuel : W.toNat * H.toNat < rfuel + st.1.length) :
    (∀ p : Pos, in_bounds W H p →
      (bfs_flow em W H (em p.2 p.1) bf [(p, [])] {p}).isSome) ∧
    (trace_river_path em W H choice bf fuel start).isSome ∧
    (repair_loop em W H rfuel st).isSome := by
  have hcard : (bounds_finset W H).card = W.toNat * H.toNat := card_bounds_finset W H
  have hbf' : (bounds_finset W H).card < bf := by
    rw [hcard]
    exact hbf
  refine ⟨?_, ?_, ?_⟩
  · intro p hp
    apply bfs_flow_total em W H (em p.2 p.1) bf [(p, [])] {p}
    · intro x hx
      obtain rfl : x = p := Finset.mem_singleton.mp hx
      exact hp
    · simp only [List.length_singleton, Finset.card_singleton]
      linarith
  · have h1 := trace_measure_lt em W H start [start]
    rw [hcard] at h1
    have htl := trace_loop_total em W H choice bf hchoice hbf' fuel start
      (em start.2 start.1) [start] hstart (lt_of_lt_of_le h1 hfuel)
    unfold trace_river_path
    cases htt : trace_loop em W H choice bf fuel start (em start.2 start.1) [start] with
    | none =>
      rw [htt] at htl
      simp at htl
    | some q => simp [htt]
  · apply repair_loop_total em W H rfuel st hnodup hstb
    rw [hcard]
    exact hrfuel

/-- Closed witness for `C6_generation_terminates`: on a 1×1 zero map the BFS,
the trace loop and the repair loop all halt with small concrete fuels. -/
theorem C6_generation_terminates_witness :
    in_bounds 1 1 ((0 : ℤ), (0 : ℤ)) ∧
    ((∀ p : Pos, in_bounds 1 1 p →
        (bfs_flow const_zero_map 1 1 (const_zero_map p.2 p.1) 2 [(p, [])]
          {p}).isSome) ∧
      (trace_river_path const_zero_map 1 1 head_choice 2 18 (0, 0)).isSome ∧
      (repair_loop const_zero_map 1 1 2 ([], fun _ => none)).isSome) :=
  ⟨by decide,
   C6_generation_terminates const_zero_map 1 1 head_choice 2 18 2 (0, 0)
     ([], fun _ => none)
     (fun l hl => by
       cases l with
       | nil => exact absurd rfl hl
       | cons h t => exact List.mem_cons_self h t)
     (by decide) (by decide) (by decide) List.nodup_nil (by simp) (by decide)⟩

/-! ## Claim C1 -/

/-- C1: `get_biome_type` follows exactly the first-match decision order of the
specification (water bands, then high-elevation bands, then the
quantized-climate bands), and in particular elevation `0.1` always yields
`deep_ocean` and elevation `0.9` always yields `snow_peaks`, for every
climate value. -/
theorem C1_biome_decision_order (elevation climate : ℚ) :
    get_biome_type elevation climate = spec_biome_order elevation climate ∧
    get_biome_type (1/10) climate = .deep_ocean ∧
    get_biome_type (9/10) climate = .snow_peaks := by
  refine ⟨?_, ?_, ?_⟩
  · simp only [get_biome_type, spec_biome_order, rat_floor_eq]
  · norm_num [get_biome_type]
  · norm_num [get_biome_type]

/-! ## Claim C8 -/

/-- C8 counterexample: the movement-cost and encounter-chance dicts have no
explicit entry for the twelfth terrain category `river` (both fall back to
their defaults for it), so the tables do not contain an explicit entry for
every one of the twelve categories. -/
theorem C8_counterexample :
    movement_cost_table Terrain.river = none ∧
    encounter_chance_table Terrain.river = none :=
  ⟨rfl, rfl⟩

/-- C8 amended: the lookup tables contain an explicit entry for exactly the
eleven non-`river` terrain categories; `river` falls back to the defaults
(movement cost `1`, encounter chance `0.2`); and `can_move_to_terrain` returns
`false` exactly for `deep_ocean`. -/
theorem C8_amended_tables :
    (∀ t : Terrain, t ≠ .river →
      (movement_cost_table t).isSome ∧ (encounter_chance_table t).isSome) ∧
    (∀ t : Terrain, can_move_to_terrain t = false ↔ t = .deep_ocean) ∧
    get_terrain_movement_cost .river = 1 ∧
    get_encounter_chance .river = 2/10 := by
  refine ⟨?_, ?_, rfl, rfl⟩
  · intro t ht
    cases t <;> simp_all [movement_cost_table, encounter_chance_table]
  · intro t
    cases t <;> simp [can_move_to_terrain]

/-- Closed witness for `C8_amended_tables`. -/
theorem C8_amended_tables_witness :
    (movement_cost_table Terrain.plains).isSome ∧
    (encounter_chance_table Terrain.plains).isSome ∧
    can_move_to_terrain Terrain.deep_ocean = false :=
  ⟨(C8_amended_tables.1 .plains (by decide)).1,
   (C8_amended_tables.1 .plains (by decide)).2,
   (C8_amended_tables.2.1 .deep_ocean).mpr rfl⟩

/-! ## Claim C9 -/

/-- C9 counterexample: constructing a noise source WITHOUT an explicit seed
does not invoke `random.seed` at all (the reseed flag is `false`); the code
reseeds the process-wide source only when an explicit seed IS given. -/
theorem C9_counterexample :
    (simplex_init shuffle0 none 0).2.2 = false := rfl

/-- C9 amended: `random.seed` is invoked during construction exactly when an
explicit seed is supplied; in that case the post-construction global random
state depends only on the seed (a real process-wide side effect), while
without a seed the constructor merely advances the global source through the
shuffle (no reseed — which is what makes repeated runs non-reproducible by
default); apart from this the construction only produces the permutation
table and the constant gradient table. -/
theorem C9_amended_reseed_effect (shuffle : RandState → List ℕ × RandState)
    (seed : Option ℕ) (g : RandState) :
    ((simplex_init shuffle seed g).2.2 = seed.isSome) ∧
    ((simplex_init shuffle none g).2.1 = (shuffle g).2) ∧
    (∀ s : ℕ, (simplex_init shuffle (some s) g).2.1 = (shuffle (random_seed s)).2) ∧
    (∀ (s : ℕ) (g' : RandState),
        simplex_init shuffle (some s) g = simplex_init shuffle (some s) g') ∧
    ((simplex_init shuffle seed g).1.grad2 = grad2_table) := by
  refine ⟨?_, rfl, fun s => rfl, fun s g' => rfl, ?_⟩ <;> cases seed <;> rfl

end Battletech
